import Mathlib

/-!
Verification development for the interface-text subsystem of a canister
console: the lexer, grammar parser and type resolver of `src/icp/methods.ts`,
and the literal-value parser and call value mapper of `src/icp/runner.ts`.
All definitions are shallow embeddings of the TypeScript source; strings are
modelled as lists of characters, JavaScript `Map`/`Set` as association lists,
thrown exceptions as `Except`/`Option` results.
-/

namespace DCC

/-! ### Lexer (methods.ts, `stripComments` / `tokenize`) -/

/-- JavaScript regular-expression class `\s` (the whitespace characters
recognised by `/\s/`), used by the lexer's `isWS` test and by `trim`;
written on code points. -/
def jsWS (c : Char) : Bool :=
  c.toNat == 32 || c.toNat == 9 || c.toNat == 10 || c.toNat == 13 ||
  c.toNat == 11 || c.toNat == 12 || c.toNat == 0xa0 || c.toNat == 0x1680 ||
  (0x2000 ≤ c.toNat && c.toNat ≤ 0x200a) || c.toNat == 0x2028 ||
  c.toNat == 0x2029 || c.toNat == 0x202f || c.toNat == 0x205f ||
  c.toNat == 0x3000 || c.toNat == 0xfeff

/-- `[A-Za-z_]`, the lexer's `isIdStart` (code points of `A-Z`, `a-z`, `_`). -/
def isIdStart (c : Char) : Bool :=
  (65 ≤ c.toNat && c.toNat ≤ 90) || (97 ≤ c.toNat && c.toNat ≤ 122) ||
  c.toNat == 95

/-- `[0-9]`, the lexer's `isNum` and the literal grammars' `\d`. -/
def isDigitCh (c : Char) : Bool := 48 ≤ c.toNat && c.toNat ≤ 57

/-- `[A-Za-z0-9_]`, the lexer's `isId` (also the JS `\w` class). -/
def isIdCh (c : Char) : Bool := isIdStart c || isDigitCh c

/-- The lexer's fixed single-character symbol set `"{}();:,=<>-"`. -/
def isSymCh (c : Char) : Bool :=
  c.toNat == 123 || c.toNat == 125 || c.toNat == 40 || c.toNat == 41 ||
  c.toNat == 59 || c.toNat == 58 || c.toNat == 44 || c.toNat == 61 ||
  c.toNat == 60 || c.toNat == 62 || c.toNat == 45

/-- `stripComments`: remove `//`-style line comments (`/\/\/[^\n\r]*/g`). -/
def stripComments : List Char → List Char
  | [] => []
  | '/' :: '/' :: rest =>
    stripComments (rest.dropWhile (fun c => ¬ (c == '\n' || c == '\r')))
  | c :: rest => c :: stripComments rest
termination_by s => s.length
decreasing_by
  · simp only [List.length_cons]
    have : (rest.dropWhile (fun c => ¬ (c == '\n' || c == '\r'))).length ≤ rest.length :=
      (List.dropWhile_sublist _).length_le
    omega
  · simp

/-- Token (`Tok` in methods.ts).  The end-of-stream sentinel that `tokenize`
pushes last is represented explicitly. -/
inductive Tok where
  | id (v : String)
  | num (v : String)
  | str (v : String)
  | sym (v : Char)
  | eof
deriving DecidableEq, Repr

/-- The string-literal scan inside `tokenize`: starting just after an opening
quote, collect characters (a backslash escapes the following character) up to
the closing quote; `none` models the `Unterminated string literal` throw. -/
def scanStr : List Char → Option (List Char × List Char)
  | [] => none
  | '\\' :: d :: rest => (scanStr rest).map (fun p => (d :: p.1, p.2))
  | '"' :: rest => some ([], rest)
  | c :: rest => (scanStr rest).map (fun p => (c :: p.1, p.2))

theorem scanStr_length : ∀ cs buf rest, scanStr cs = some (buf, rest) →
    rest.length < cs.length := by
  intro cs
  induction cs using scanStr.induct with
  | case1 => simp [scanStr]
  | case2 d rest ih =>
    intro buf r h
    simp only [scanStr, Option.map_eq_some'] at h
    obtain ⟨⟨b2, r2⟩, hs, he⟩ := h
    have := ih b2 r2 hs
    cases he
    simp only [List.length_cons]; omega
  | case3 rest => intro buf r h; simp [scanStr] at h; simp [h.2]
  | case4 c rest h1 h2 ih =>
    intro buf r h
    simp only [scanStr, Option.map_eq_some'] at h
    obtain ⟨⟨b2, r2⟩, hs, he⟩ := h
    have := ih b2 r2 hs
    cases he
    simp only [List.length_cons]; omega

/-- Lexer / parser failure kinds (each `throw new Error(...)` site of
methods.ts), plus `outOfFuel` for the fuel-indexed parser loops. -/
inductive PErr where
  | unterminatedStr
  | expectedSym (v : Char)
  | expectedId (v : Option String)
  | outOfFuel
deriving DecidableEq, Repr

/-- Main lexer loop of `tokenize` (after comment stripping), producing the
token sequence without the final `eof` sentinel. -/
def tokAux : List Char → Except PErr (List Tok)
  | [] => .ok []
  | c :: cs =>
    if jsWS c then tokAux cs
    else if c == '"' then
      match h : scanStr cs with
      | none => .error .unterminatedStr
      | some (buf, rest) => (tokAux rest).map (.str (String.mk buf) :: ·)
    else if isDigitCh c then
      (tokAux (cs.dropWhile isDigitCh)).map
        (.num (String.mk (c :: cs.takeWhile isDigitCh)) :: ·)
    else if isIdStart c then
      (tokAux (cs.dropWhile isIdCh)).map
        (.id (String.mk (c :: cs.takeWhile isIdCh)) :: ·)
    else if isSymCh c then
      (tokAux cs).map (.sym c :: ·)
    else tokAux cs
termination_by s => s.length
decreasing_by
  · simp
  · have := scanStr_length cs buf rest h
    simp only [List.length_cons]; omega
  · have : (cs.dropWhile isDigitCh).length ≤ cs.length :=
      (List.dropWhile_sublist _).length_le
    simp only [List.length_cons]; omega
  · have : (cs.dropWhile isIdCh).length ≤ cs.length :=
      (List.dropWhile_sublist _).length_le
    simp only [List.length_cons]; omega
  · simp
  · simp

/-- `tokenize`: strip comments, lex, append the `eof` sentinel. -/
def tokenize (s : List Char) : Except PErr (List Tok) :=
  (tokAux (stripComments s)).map (· ++ [.eof])

/-! ### Type syntax trees and the grammar parser (methods.ts) -/

/-- `TNode`, the pre-resolution type syntax tree.  Record fields and variant
alternatives are name/type pairs in declaration order. -/
inductive TNode where
  | prim (n : String)
  | ref (n : String)
  | opt (inner : TNode)
  | vec (inner : TNode)
  | record (fields : List (String × TNode)) (positional : Bool)
  | variant (alts : List (String × TNode))

/-- The parser's fixed primitive keyword set (`prims` in `parseType`). -/
def primNames : List String :=
  ["nat", "nat64", "nat32", "nat16", "nat8", "int", "int64", "int32", "int16",
   "int8", "bool", "text", "principal", "null", "blob", "reserved"]

/-- `Parser.peek`: the current token (`eof` when past the end). -/
def peekT : List Tok → Tok
  | [] => .eof
  | t :: _ => t

/-- `Parser.matchSym`: consume the symbol when it is next. -/
def matchSymT (v : Char) : List Tok → Option (List Tok)
  | .sym w :: rest => if w = v then some rest else none
  | _ => none

/-- `Parser.matchId`: consume the identifier when it is next. -/
def matchIdT (v : String) : List Tok → Option (List Tok)
  | .id w :: rest => if w = v then some rest else none
  | _ => none

/-- `Parser.expectSym`. -/
def expectSymT (v : Char) : List Tok → Except PErr (List Tok)
  | .sym w :: rest => if w = v then .ok rest else .error (.expectedSym v)
  | _ => .error (.expectedSym v)

/-- `Parser.expectId` (the no-argument use, the only one in the source). -/
def expectIdT : List Tok → Except PErr (String × List Tok)
  | .id w :: rest => .ok (w, rest)
  | _ => .error (.expectedId none)

mutual

/-- `parseType`, indexed by fuel (the source loops terminate because every
iteration consumes at least one token; the fuel only bounds that recursion). -/
def parseTypeF : Nat → List Tok → Except PErr (TNode × List Tok)
  | 0, _ => .error .outOfFuel
  | fuel+1, toks =>
    match matchIdT "opt" toks with
    | some t1 => (parseTypeF fuel t1).map (fun p => (.opt p.1, p.2))
    | none =>
    match matchIdT "vec" toks with
    | some t1 => (parseTypeF fuel t1).map (fun p => (.vec p.1, p.2))
    | none =>
    match matchIdT "record" toks with
    | some t1 => do
      let t2 ← expectSymT '\x7b' t1
      parseRecF fuel t2 [] 0 false
    | none =>
    match matchIdT "variant" toks with
    | some t1 => do
      let t2 ← expectSymT '\x7b' t1
      parseVarF fuel t2 []
    | none => do
      let (idv, t1) ← expectIdT toks
      if idv ∈ primNames then .ok (.prim idv, t1) else .ok (.ref idv, t1)

/-- The record-body loop of `parseType`.  In the positional branch the source
resets the token position to before the identifier (`p.p = save`); here that
is the unchanged `toks`. -/
def parseRecF : Nat → List Tok → List (String × TNode) → Nat → Bool →
    Except PErr (TNode × List Tok)
  | 0, _, _, _, _ => .error .outOfFuel
  | fuel+1, toks, fields, posIdx, positional =>
    match matchSymT '\x7d' toks with
    | some rest => .ok (.record fields positional, rest)
    | none =>
      match peekT toks with
      | .id idv =>
        (match matchSymT ':' toks.tail with
         | some t2 => do
           let (ty, t3) ← parseTypeF fuel t2
           let t4 := (matchSymT ';' t3).getD t3
           parseRecF fuel t4 (fields ++ [(idv, ty)]) posIdx positional
         | none => do
           let (ty, t2) ← parseTypeF fuel toks
           let t3 := (matchSymT ';' t2).getD t2
           parseRecF fuel t3 (fields ++ [(toString posIdx, ty)]) (posIdx+1) true)
      | _ => do
        let (ty, t2) ← parseTypeF fuel toks
        let t3 := (matchSymT ';' t2).getD t2
        parseRecF fuel t3 (fields ++ [(toString posIdx, ty)]) (posIdx+1) true

/-- The variant-body loop of `parseType` (a bare alternative defaults to the
`null` primitive). -/
def parseVarF : Nat → List Tok → List (String × TNode) →
    Except PErr (TNode × List Tok)
  | 0, _, _ => .error .outOfFuel
  | fuel+1, toks, alts =>
    match matchSymT '\x7d' toks with
    | some rest => .ok (.variant alts, rest)
    | none => do
      let (name, t1) ← expectIdT toks
      match matchSymT ':' t1 with
      | some t2 => do
        let (ty, t3) ← parseTypeF fuel t2
        let t4 := (matchSymT ';' t3).getD t3
        parseVarF fuel t4 (alts ++ [(name, ty)])
      | none =>
        let t2 := (matchSymT ';' t1).getD t1
        parseVarF fuel t2 (alts ++ [(name, .prim "null")])

end

/-- `typeToText`: canonical surface text of a type node (records and variants
are elided to a brace-and-ellipsis placeholder, exactly as in the source). -/
def typeToText : TNode → String
  | .prim n => n
  | .ref n => n
  | .opt inner => "opt " ++ typeToText inner
  | .vec inner => "vec " ++ typeToText inner
  | .record _ _ => "record \x7b … \x7d"
  | .variant _ => "variant \x7b … \x7d"

/-- Method kind: trailing `query` keyword present, or `update` otherwise. -/
inductive MKind where
  | query
  | update
deriving DecidableEq, Repr

/-- A raw method signature as collected by `parseTypeAliasesAndService`
(`methodsRaw` entries). -/
structure MethodRaw where
  name : String
  kind : MKind
  args : List TNode
  rets : List TNode
  sigLine : String

/-- JavaScript `Array.prototype.join(", ")`. -/
def joinComma : List String → String
  | [] => ""
  | [x] => x
  | x :: xs => x ++ ", " ++ joinComma xs

/-- The canonical signature line reconstructed for each parsed method. -/
def mkSigLine (mname : String) (kind : MKind) (args rets : List TNode) : String :=
  mname ++ " : (" ++ joinComma (args.map typeToText) ++ ") -> (" ++
    joinComma (rets.map typeToText) ++ ")" ++
    (if kind = .query then " query;" else ";")

/-- The `while (!p.matchSym(";"))` trailing-annotation eater: consume tokens
up to and including `;`, stopping (without consuming) at `eof` or `}`. -/
def eatSemi : List Tok → List Tok
  | [] => []
  | t :: rest =>
    if t = .sym ';' then rest
    else if t = .eof ∨ t = .sym '\x7d' then t :: rest
    else eatSemi rest

/-- The comma-separated type-list loop shared by argument and return lists. -/
def argLoopF : Nat → List Tok → List TNode → Except PErr (List TNode × List Tok)
  | 0, _, _ => .error .outOfFuel
  | fuel+1, toks, acc => do
    let (ty, t1) ← parseTypeF fuel toks
    match matchSymT ',' t1 with
    | some t2 => argLoopF fuel t2 (acc ++ [ty])
    | none => do
      let t2 ← expectSymT ')' t1
      .ok (acc ++ [ty], t2)

/-- `(` was already consumed: parse `)`-terminated type list. -/
def parseArgListF (fuel : Nat) (toks : List Tok) :
    Except PErr (List TNode × List Tok) :=
  match matchSymT ')' toks with
  | some rest => .ok ([], rest)
  | none => argLoopF fuel toks []

/-- The service-block body loop: parse method entries until `}` (or `eof`). -/
def serviceLoopF : Nat → List Tok → List MethodRaw →
    Except PErr (List MethodRaw × List Tok)
  | 0, _, _ => .error .outOfFuel
  | fuel+1, toks, acc =>
    match matchSymT '\x7d' toks with
    | some rest => .ok (acc, rest)
    | none =>
      match peekT toks with
      | .eof => .ok (acc, toks)
      | .id mname =>
        (match matchSymT ':' toks.tail with
         | none => serviceLoopF fuel toks.tail acc
         | some t2 => do
           let t3 ← expectSymT '(' t2
           let (args, t4) ← parseArgListF fuel t3
           let t5 ← expectSymT '-' t4
           let t6 ← expectSymT '>' t5
           let t7 ← expectSymT '(' t6
           let (rets, t8) ← parseArgListF fuel t7
           let (kind, t9) :=
             match matchIdT "query" t8 with
             | some x => (MKind.query, x)
             | none => (MKind.update, t8)
           let t10 := eatSemi t9
           serviceLoopF fuel t10
             (acc ++ [⟨mname, kind, args, rets, mkSigLine mname kind args rets⟩]))
      | _ => serviceLoopF fuel toks.tail acc

/-- Result of `parseTypeAliasesAndService`: the alias table and the raw
method list.  `Map.set` overwrites, `Map.get` returns the latest binding;
the table is therefore a cons-on-set association list searched from the
front. -/
structure ParseOut where
  aliases : List (String × TNode)
  methodsRaw : List MethodRaw

/-- `aliases.set name ty` (last writer wins under front-first lookup). -/
def setAlias (aliases : List (String × TNode)) (name : String) (ty : TNode) :
    List (String × TNode) := (name, ty) :: aliases

/-- The top-level statement loop of `parseTypeAliasesAndService`: alias
statements and unknown tokens until the single `service` block (after which
the source `break`s out and returns). -/
def mainLoopF : Nat → List Tok → List (String × TNode) → Except PErr ParseOut
  | 0, _, _ => .error .outOfFuel
  | fuel+1, toks, aliases =>
    if peekT toks = .eof then .ok ⟨aliases, []⟩
    else
      match matchIdT "type" toks with
      | some t1 => do
        let (name, t2) ← expectIdT t1
        let t3 ← expectSymT '=' t2
        let (ty, t4) ← parseTypeF fuel t3
        let t5 := (matchSymT ';' t4).getD t4
        mainLoopF fuel t5 (setAlias aliases name ty)
      | none =>
        match matchIdT "service" toks with
        | some t1 => do
          let t2 ←
            (match matchSymT ':' t1 with
             | some x => pure x
             | none =>
               match peekT t1 with
               | .id _ => expectSymT ':' t1.tail
               | _ => pure ((matchSymT ':' t1).getD t1))
          let t3 ← expectSymT '\x7b' t2
          let (ms, _) ← serviceLoopF fuel t3 []
          .ok ⟨aliases, ms⟩
        | none => mainLoopF fuel toks.tail aliases

/-- `parseTypeAliasesAndService`: tokenize, then run the statement loop. -/
def parseTypeAliasesAndService (fuel : Nat) (didText : List Char) :
    Except PErr ParseOut := do
  let toks ← tokenize didText
  mainLoopF fuel toks []

/-! ### Type resolver (methods.ts, `toIDL`) -/

/-- The concrete runtime type representation (`IDL.Type` as used here). -/
inductive IDLType where
  | nat
  | nat64
  | nat32
  | nat16
  | nat8
  | int
  | int64
  | int32
  | int16
  | int8
  | bool
  | text
  | principal
  | null
  | reserved
  | opt (t : IDLType)
  | vec (t : IDLType)
  | record (fields : List (String × IDLType))
  | variant (alts : List (String × IDLType))

/-- The `switch (node.n)` primitive mapping of `toIDL` (`blob` becomes a
vector of 8-bit naturals; anything unrecognized becomes `reserved`). -/
def primIDL : String → IDLType
  | "nat" => .nat
  | "nat64" => .nat64
  | "nat32" => .nat32
  | "nat16" => .nat16
  | "nat8" => .nat8
  | "int" => .int
  | "int64" => .int64
  | "int32" => .int32
  | "int16" => .int16
  | "int8" => .int8
  | "bool" => .bool
  | "text" => .text
  | "principal" => .principal
  | "null" => .null
  | "reserved" => .reserved
  | "blob" => .vec .nat8
  | _ => .reserved

/-- Number of alias-table keys not yet in the in-progress set: the part of
`toIDL`'s termination measure contributed by the `seen` set. -/
def aliasCount (aliases : List (String × TNode)) (seen : List String) : Nat :=
  ((aliases.map Prod.fst).filter (fun n => ! seen.contains n)).length

theorem filter_length_mono {α : Type} (l : List α) (p q : α → Bool)
    (himp : ∀ x, q x = true → p x = true) :
    (l.filter q).length ≤ (l.filter p).length := by
  induction l with
  | nil => simp
  | cons a l ih =>
    by_cases hq : q a = true
    · have hp := himp a hq
      simp [List.filter, hq, hp, ih]
    · simp only [Bool.not_eq_true] at hq
      by_cases hp : p a = true
      · simp only [List.filter, hq, hp]
        exact Nat.le_succ_of_le ih
      · simp only [Bool.not_eq_true] at hp
        simp [List.filter, hq, hp, ih]

theorem filter_length_lt {α : Type} (l : List α) (p q : α → Bool)
    (himp : ∀ x, q x = true → p x = true) (x0 : α) (hx0 : x0 ∈ l)
    (hp : p x0 = true) (hq : q x0 = false) :
    (l.filter q).length < (l.filter p).length := by
  induction l with
  | nil => cases hx0
  | cons a l ih =>
    rcases List.mem_cons.mp hx0 with rfl | hmem
    · simp only [List.filter, hq, hp]
      have := filter_length_mono l p q himp
      simp only [List.length_cons]
      omega
    · by_cases hqa : q a = true
      · have hpa := himp a hqa
        simp [List.filter, hqa, hpa, ih hmem]
      · simp only [Bool.not_eq_true] at hqa
        by_cases hpa : p a = true
        · simp only [List.filter, hqa, hpa]
          have := ih hmem
          simp only [List.length_cons]
          omega
        · simp only [Bool.not_eq_true] at hpa
          simp [List.filter, hqa, hpa, ih hmem]

theorem lookup_mem_keys {aliases : List (String × TNode)} {name : String}
    {t : TNode} (h : aliases.lookup name = some t) :
    name ∈ aliases.map Prod.fst := by
  induction aliases with
  | nil => simp [List.lookup] at h
  | cons a l ih =>
    cases a with
    | mk k v =>
      simp only [List.lookup] at h
      by_cases hk : name == k
      · simp only [List.map_cons]
        have : name = k := eq_of_beq hk
        simp [this]
      · simp only [Bool.not_eq_true] at hk
        rw [hk] at h
        simp only [List.map_cons]
        exact List.mem_cons_of_mem _ (ih h)

theorem aliasCount_lt (aliases : List (String × TNode)) (seen : List String)
    (name : String) (t : TNode) (hlk : aliases.lookup name = some t)
    (hseen : seen.contains name = false) :
    aliasCount aliases (name :: seen) < aliasCount aliases seen := by
  refine filter_length_lt _ _ _ ?_ name (lookup_mem_keys hlk) ?_ ?_
  · intro x hx
    simp only [Bool.not_eq_true', List.contains_cons] at hx ⊢
    exact (Bool.or_eq_false_iff.mp hx).2
  · simp only [Bool.not_eq_true']
    exact hseen
  · simp [List.contains_cons]

/-- `toIDL`: resolve a type syntax node against the alias table.  The
`seen` set (threaded mutably in the source, restored around each recursive
alias resolution, hence functionally passed here) breaks alias cycles. -/
def toIDL (node : TNode) (aliases : List (String × TNode))
    (seen : List String) : IDLType :=
  match node with
  | .ref name =>
    if h : seen.contains name then .reserved
    else
      match hl : aliases.lookup name with
      | none => .reserved
      | some ali => toIDL ali aliases (name :: seen)
  | .prim n => primIDL n
  | .opt inner => .opt (toIDL inner aliases seen)
  | .vec inner => .vec (toIDL inner aliases seen)
  | .record fields _ =>
    .record (fields.attach.map (fun x => (x.1.1, toIDL x.1.2 aliases seen)))
  | .variant alts =>
    .variant (alts.attach.map (fun x => (x.1.1, toIDL x.1.2 aliases seen)))
termination_by (aliasCount aliases seen, sizeOf node)
decreasing_by
  · apply Prod.Lex.left
    exact aliasCount_lt aliases seen name ali hl (by simpa using h)
  · apply Prod.Lex.right
    simp
  · apply Prod.Lex.right
    simp
  · apply Prod.Lex.right
    have h1 := List.sizeOf_lt_of_mem x.2
    have h2 : sizeOf x.1.2 < sizeOf x.1 := by
      cases hx : x.1 with
      | mk a b => simp [hx]
    simp
    omega
  · apply Prod.Lex.right
    have h1 := List.sizeOf_lt_of_mem x.2
    have h2 : sizeOf x.1.2 < sizeOf x.1 := by
      cases hx : x.1 with
      | mk a b => simp [hx]
    simp
    omega

/-- Fuel-indexed restatement of `toIDL`'s recursion, used to express that
the recursion terminates: `none` means the fuel ran out. -/
def toIDLF : Nat → TNode → List (String × TNode) → List String → Option IDLType
  | 0, _, _, _ => none
  | fuel+1, node, aliases, seen =>
    match node with
    | .ref name =>
      if seen.contains name then some .reserved
      else
        match aliases.lookup name with
        | none => some .reserved
        | some ali => toIDLF fuel ali aliases (name :: seen)
    | .prim n => some (primIDL n)
    | .opt inner => (toIDLF fuel inner aliases seen).map .opt
    | .vec inner => (toIDLF fuel inner aliases seen).map .vec
    | .record fields _ =>
      (fields.mapM (fun x => (toIDLF fuel x.2 aliases seen).map
        (fun t => (x.1, t)))).map .record
    | .variant alts =>
      (alts.mapM (fun x => (toIDLF fuel x.2 aliases seen).map
        (fun t => (x.1, t)))).map .variant

/-! ### Method signature extraction (methods.ts, `extractMethodSigs`) -/

/-- `MethodSig`: a raw method with its argument/return type nodes resolved. -/
structure MethodSig where
  name : String
  kind : MKind
  argTypes : List IDLType
  retTypes : List IDLType
  sigLine : String

/-- Lexicographic order on character sequences (by code point). -/
def strLeb : List Char → List Char → Bool
  | [], _ => true
  | _ :: _, [] => false
  | a :: as, b :: bs =>
    if a.toNat < b.toNat then true
    else if b.toNat < a.toNat then false
    else strLeb as bs

/-- The sort comparator `(a, b) => a.name.localeCompare(b.name)`, modelled as
lexicographic string order.  `Array.prototype.sort` is stable, hence
`mergeSort`. -/
def sigLE (a b : MethodSig) : Bool := strLeb a.name.data b.name.data

/-- `extractMethodSigs`: parse, resolve each method's types against the alias
table (with a fresh in-progress set per type), and sort by name. -/
def extractMethodSigs (fuel : Nat) (didText : List Char) :
    Except PErr (List MethodSig) :=
  (parseTypeAliasesAndService fuel didText).map (fun r =>
    (r.methodsRaw.map (fun m =>
      ⟨m.name, m.kind, m.args.map (fun t => toIDL t r.aliases []),
        m.rets.map (fun t => toIDL t r.aliases []), m.sigLine⟩)).mergeSort sigLE)

/-! ### Literal value parser (runner.ts, `parseArgsText` and helpers) -/

/-- JavaScript `String.prototype.trim` (same whitespace class as `\s`). -/
def trimChars (s : List Char) : List Char :=
  ((s.dropWhile jsWS).reverse.dropWhile jsWS).reverse

/-- `ArgVal`: the closed set of literal value kinds.  Integer literals come
from `\d+` so `bigint`/`number` values are naturals. -/
inductive ArgVal where
  | nat (value : Nat)
  | principal (value : String)
  | optPrincipal (value : Option String)
  | vecNat (value : List Nat)
  | vecNat8 (value : List Nat)
  | vecPrincipal (value : List String)
  | text (value : String)
  | bool (value : Bool)
  | null
deriving DecidableEq, Repr

/-- The `throw new Error(...)` sites of the literal parser, one constructor
per site (messages carry the offending data exactly as the source does). -/
inductive LitError where
  | emptyArg
  | unsupportedVecNat8Elem (p : String)
  | nat8OutOfRange (n : Nat)
  | unsupportedVecPrincipalElem (p : String)
  | unsupportedVecElem (p : String)
  | unsupportedArg (s : String)
  | argsNotParenthesized
deriving DecidableEq, Repr

/-- Loop body of `splitTopLevelComma`: `prev` is the previous character (for
the `s[i-1] !== "\\"` test), `cur` is the current chunk reversed, `out` the
finished chunks reversed. -/
def splitTLCGo : List Char → Option Char → Int → Bool → List Char →
    List (List Char) → List (List Char)
  | [], _, _, _, cur, out =>
    let c := trimChars cur.reverse
    if c.isEmpty then out.reverse else (c :: out).reverse
  | ch :: rest, prev, depth, inStr, cur, out =>
    let inStr' := if ch = '"' ∧ prev ≠ some '\\' then !inStr else inStr
    if inStr' = false then
      if ch = '\x7b' then splitTLCGo rest (some ch) (depth+1) inStr' (ch :: cur) out
      else if ch = '\x7d' then splitTLCGo rest (some ch) (depth-1) inStr' (ch :: cur) out
      else if ch = ',' ∧ depth = 0 then
        splitTLCGo rest (some ch) depth inStr' [] (trimChars cur.reverse :: out)
      else splitTLCGo rest (some ch) depth inStr' (ch :: cur) out
    else splitTLCGo rest (some ch) depth inStr' (ch :: cur) out

/-- `splitTopLevelComma`: split on commas outside braces and quotes. -/
def splitTopLevelComma (s : List Char) : List (List Char) :=
  splitTLCGo s none 0 false [] []

/-- `body.split(";")`. -/
def splitSemiGo : List Char → List Char → List (List Char)
  | [], cur => [cur.reverse]
  | ';' :: rest, cur => cur.reverse :: splitSemiGo rest []
  | c :: rest, cur => splitSemiGo rest (c :: cur)

/-- `parseVecBody`: split on `;`, trim, drop empties. -/
def parseVecBody (body : List Char) : List (List Char) :=
  ((splitSemiGo body []).map trimChars).filter (fun x => ¬ x.isEmpty)

/-- Decimal digit-run value (`Number`/`BigInt` of a `\d+` match). -/
def digitsVal (ds : List Char) : Nat :=
  ds.foldl (fun acc c => acc * 10 + (c.toNat - 48)) 0

/-- Consume an exact literal prefix. -/
def dropLit (lit : List Char) (s : List Char) : Option (List Char) :=
  if lit.isPrefixOf s then some (s.drop lit.length) else none

/-- `\s+` followed by maximal munch (the next expected character is never
whitespace, so greedy matching is exact). -/
def wsPlus : List Char → Option (List Char)
  | [] => none
  | c :: rest => if jsWS c then some (rest.dropWhile jsWS) else none

/-- `^"([^"]+)"$` on the remainder: a quoted, nonempty, quote-free id. -/
def quotedTail (s : List Char) : Option (List Char) :=
  match s with
  | '"' :: rest =>
    let mid := rest.takeWhile (fun c => c ≠ '"')
    if ¬ mid.isEmpty ∧ rest.drop mid.length = ['"'] then some mid else none
  | _ => none

/-- `/^"([\s\S]*)"$/`: a fully double-quoted string (inner may be empty). -/
def matchTextLit (t : List Char) : Option (List Char) :=
  match t with
  | '"' :: rest =>
    if rest.getLast? = some '"' then some rest.dropLast else none
  | _ => none

/-- `/^principal\s+"([^"]+)"$/`. -/
def matchPrincipalLit (t : List Char) : Option (List Char) := do
  let r1 ← dropLit "principal".data t
  let r2 ← wsPlus r1
  quotedTail r2

/-- `/^opt\s+principal\s+"([^"]+)"$/`. -/
def matchOptPrincipalLit (t : List Char) : Option (List Char) := do
  let r1 ← dropLit "opt".data t
  let r2 ← wsPlus r1
  matchPrincipalLit r2

/-- `^vec\s*\{`: the shared head of the three vector grammars; returns the
remainder after the opening brace. -/
def afterVecBrace (t : List Char) : Option (List Char) := do
  let r1 ← dropLit "vec".data t
  match r1.dropWhile jsWS with
  | '\x7b' :: r3 => some r3
  | _ => none

/-- Greedy `([\s\S]*)\s*\}` followed by a suffix test: walk the reversed
remainder; the first closing brace (from the right) whose suffix satisfies
`sOk` wins, matching the regex's backtracking order. -/
def findLastBrace (sOk : List Char → Bool) : List Char → List Char →
    Option (List Char × List Char)
  | [], _ => none
  | c :: revRest, suf =>
    if c = '\x7d' ∧ sOk suf then some (revRest.reverse, suf)
    else findLastBrace sOk revRest (c :: suf)

/-- The capture of a `vec { ... }` grammar whose post-brace suffix satisfies
`sOk` (the capture still carries surrounding whitespace; the source trims
it before use). -/
def vecCapture (sOk : List Char → Bool) (t : List Char) : Option (List Char) := do
  let r ← afterVecBrace t
  let p ← findLastBrace sOk r.reverse []
  some p.1

/-- `\s*:\s*WORD$` where `WORD` is drawn exactly from `words`. -/
def colonWordSuffix (words : List (List Char)) (suf : List Char) : Bool :=
  match suf.dropWhile jsWS with
  | ':' :: r => words.contains (r.dropWhile jsWS)
  | _ => false

/-- The size-suffix words of the generic integer vector and scalar grammars
(`nat|nat64|nat32|nat16`). -/
def natSuffixes : List (List Char) :=
  ["nat".data, "nat64".data, "nat32".data, "nat16".data]

/-- Outer match of `/^vec\s*\{\s*([\s\S]*)\s*\}\s*:\s*nat8$/`. -/
def vecNat8Capture (t : List Char) : Option (List Char) :=
  vecCapture (fun suf => colonWordSuffix ["nat8".data] suf) t

/-- Outer match of `/^vec\s*\{\s*([\s\S]*)\s*\}$/` (the vec-principal
shape: the closing brace ends the text). -/
def vecAnyCapture (t : List Char) : Option (List Char) :=
  vecCapture (fun suf => suf.isEmpty) t

/-- Outer match of
`/^vec\s*\{\s*([\s\S]*)\s*\}(?:\s*:\s*(nat|nat64|nat32|nat16))?$/`. -/
def vecGenCapture (t : List Char) : Option (List Char) :=
  vecCapture (fun suf => suf.isEmpty || colonWordSuffix natSuffixes suf) t

/-- `(\s*:\s*WORD)?$`: either nothing at all, or a colon suffix. -/
def optColonSuffix (words : List (List Char)) (s : List Char) : Bool :=
  s.isEmpty || colonWordSuffix words s

/-- `^(\d+)(\s*:\s*WORD)?$`: a bare decimal integer with optional size
suffix; returns its value. -/
def decimalElem (words : List (List Char)) (p : List Char) : Option Nat :=
  let ds := p.takeWhile isDigitCh
  if ds.isEmpty then none
  else if optColonSuffix words (p.drop ds.length) then some (digitsVal ds)
  else none

/-- JavaScript `\w` (same class as the lexer's identifier characters). -/
def isWordCh (c : Char) : Bool := isIdCh c

/-- `principal` followed by `\s+` and `"`, starting exactly here. -/
def princQuoteAt (l : List Char) : Bool :=
  match dropLit "principal".data l with
  | some r1 =>
    (match r1 with
     | c :: _ => jsWS c ∧ (r1.dropWhile jsWS).headD ' ' = '"'
     | [] => false)
  | none => false

/-- `/\bprincipal\s+"/.test(t)`: scan every position, requiring a word
boundary before the `p`. -/
def hasPrincQuote : Option Char → List Char → Bool
  | _, [] => false
  | prev, c :: rest =>
    ((match prev with
      | none => true
      | some p => ! isWordCh p) && princQuoteAt (c :: rest))
    || hasPrincQuote (some c) rest

/-- The per-element rule of the `nat8`-suffixed vector grammar: a bare
decimal (optionally suffixed `: nat8`), range checked against 0..255. -/
def nat8Elem (p : List Char) : Except LitError Nat :=
  match decimalElem ["nat8".data] p with
  | none => .error (.unsupportedVecNat8Elem (String.mk p))
  | some n => if n > 255 then .error (.nat8OutOfRange n) else .ok n

/-- The per-element rule of the vec-principal grammar. -/
def vecPrincElem (p : List Char) : Except LitError String :=
  match matchPrincipalLit p with
  | none => .error (.unsupportedVecPrincipalElem (String.mk p))
  | some pid => .ok (String.mk pid)

/-- The per-element rule of the generic integer vector grammar (arbitrary
precision, no range check). -/
def vecNatElem (p : List Char) : Except LitError Nat :=
  match decimalElem natSuffixes p with
  | none => .error (.unsupportedVecElem (String.mk p))
  | some n => .ok n

/-- The vector and scalar grammars of `parseSingleArgText` (rules 6-9 of the
dispatch chain, split out; `s` is the untrimmed input echoed in the final
`Unsupported arg` error, `t` the trimmed element). -/
def parseVecForms (s t : List Char) : Except LitError ArgVal :=
  match vecNat8Capture t with
  | some cap =>
    let body := trimChars cap
    if body.isEmpty then .ok (.vecNat8 [])
    else do
      let nums ← (parseVecBody body).mapM nat8Elem
      .ok (.vecNat8 nums)
  | none =>
  match vecAnyCapture t, hasPrincQuote none t with
  | some cap, true =>
    let body := trimChars cap
    if body.isEmpty then .ok (.vecPrincipal [])
    else do
      let ps ← (parseVecBody body).mapM vecPrincElem
      .ok (.vecPrincipal ps)
  | _, _ =>
  match vecGenCapture t with
  | some cap =>
    let body := trimChars cap
    if body.isEmpty then .ok (.vecNat [])
    else do
      let nums ← (parseVecBody body).mapM vecNatElem
      .ok (.vecNat nums)
  | none =>
  match decimalElem (natSuffixes ++ ["nat8".data]) t with
  | some n => .ok (.nat n)
  | none => .error (.unsupportedArg (String.mk s))

/-- The claim's "generic integer-vector form": the element is a
`vec { ... }` group with an optional `nat`-family size suffix (any of
`nat|nat64|nat32|nat16|nat8`) whose elements are all bare decimal integers
with optional matching suffix — the syntactic superset, common to the
`nat8`-suffixed and plain integer vector grammars, that the priority order
disambiguates. -/
def intVecShape (t : List Char) : Bool :=
  match vecCapture (fun suf => suf.isEmpty ||
      colonWordSuffix (natSuffixes ++ ["nat8".data]) suf) t with
  | some cap => (parseVecBody (trimChars cap)).all
      (fun p => (decimalElem (natSuffixes ++ ["nat8".data]) p).isSome)
  | none => false

/-- `parseSingleArgText`: the ORDER-SIGNIFICANT literal grammar dispatch
(rules 1-5, then the vector/scalar rules of `parseVecForms`). -/
def parseSingleArgText (s : List Char) : Except LitError ArgVal :=
  let t := trimChars s
  if t.isEmpty then .error .emptyArg
  else if t = "null".data then .ok .null
  else if t = "true".data then .ok (.bool true)
  else if t = "false".data then .ok (.bool false)
  else match matchTextLit t with
  | some inner => .ok (.text (String.mk inner))
  | none =>
  match matchPrincipalLit t with
  | some pid => .ok (.principal (String.mk pid))
  | none =>
  match matchOptPrincipalLit t with
  | some pid => .ok (.optPrincipal (some (String.mk pid)))
  | none =>
  if t = "opt null".data then .ok (.optPrincipal none)
  else parseVecForms s t

/-- `/^\(\s*\)$/`. -/
def isEmptyParens (t : List Char) : Bool :=
  match t with
  | '(' :: rest => rest.dropWhile jsWS = [')']
  | _ => false

/-- `parseArgsText`: strip the outer parentheses, split on top-level commas,
parse each element. -/
def parseArgsText (argsText : List Char) : Except LitError (List ArgVal) :=
  let t := trimChars argsText
  if t.isEmpty then .ok []
  else if isEmptyParens t then .ok []
  else if ¬ (t.headD ' ' = '(' ∧ t.getLast? = some ')') then
    .error .argsNotParenthesized
  else
    let inner := trimChars (t.drop 1).dropLast
    if inner.isEmpty then .ok []
    else (splitTopLevelComma inner).mapM parseSingleArgText

/-! ### Call value mapper (runner.ts, `runMethod`) -/

/-- Encode-ready values (`argValues` entries handed to `IDL.encode`):
`Principal.fromText` handles stay symbolic, `opt` is the zero/one-element
array encoding, `vec nat8` is the byte buffer. -/
inductive EncVal where
  | principalH (s : String)
  | optPrincipalEnc (v : Option String)
  | natV (n : Nat)
  | vecNatV (ns : List Nat)
  | bytesV (bs : List Nat)
  | vecPrincipalH (ps : List String)
  | textV (s : String)
  | boolV (b : Bool)
  | nullV
deriving DecidableEq, Repr

/-- The per-literal conversion `switch (a.kind)` in `runMethod`. -/
def argValToEncode : ArgVal → EncVal
  | .principal s => .principalH s
  | .optPrincipal v => .optPrincipalEnc v
  | .nat n => .natV n
  | .vecNat ns => .vecNatV ns
  | .vecNat8 bs => .bytesV bs
  | .vecPrincipal ps => .vecPrincipalH ps
  | .text s => .textV s
  | .bool b => .boolV b
  | .null => .nullV

/-- `runMethod`'s failure kinds on the outbound path. -/
inductive RunError where
  | lit (e : LitError)
  | argCountMismatch (expected actual : Nat)
deriving DecidableEq, Repr

/-- What `runMethod` hands to the external binary encoder `IDL.encode`. -/
structure EncodeCall where
  types : List IDLType
  values : List EncVal

/-- The outbound mapping step of `runMethod` after literal parsing: the
argument-count check, then the literal conversions. -/
def mapCallArgs (argTypes : List IDLType) (parsed : List ArgVal) :
    Except RunError EncodeCall :=
  if parsed.length ≠ argTypes.length then
    .error (.argCountMismatch argTypes.length parsed.length)
  else .ok ⟨argTypes, parsed.map argValToEncode⟩

/-- The outbound path of `runMethod` up to the encoder call: parse the
argument text, then map. -/
def runMethodOutbound (argTypes : List IDLType) (argsText : List Char) :
    Except RunError EncodeCall := do
  let parsed ← (parseArgsText argsText).mapError RunError.lit
  mapCallArgs argTypes parsed

/-! ### Reply handling (runner.ts, `rawDump` and the decode step) -/

/-- One lowercase hex digit (`Number.prototype.toString(16)`). -/
def hexDigitCh (n : Nat) : Char :=
  if n < 10 then Char.ofNat (48 + n) else Char.ofNat (87 + n)

/-- `toHex`: two lowercase hex digits per byte (`padStart(2, "0")`). -/
def toHex (u8 : List Nat) : List Char :=
  u8.foldr (fun b acc => hexDigitCh (b / 16) :: hexDigitCh (b % 16) :: acc) []

/-- The standard base64 alphabet used by `btoa`. -/
def b64Alphabet : List Char :=
  "ABCDEFGHIJKLMNOPQRSTUVWXYZabcdefghijklmnopqrstuvwxyz0123456789+/".data

/-- Alphabet character of a 6-bit group. -/
def b64Char (n : Nat) : Char := b64Alphabet.getD n 'A'

/-- `toBase64`: `btoa` of the byte string (3-byte groups into 4 characters,
`=`-padded). -/
def toBase64 : List Nat → List Char
  | [] => []
  | [a] => [b64Char (a / 4), b64Char (a % 4 * 16), '=', '=']
  | [a, b] => [b64Char (a / 4), b64Char (a % 4 * 16 + b / 16),
               b64Char (b % 16 * 4), '=']
  | a :: b :: c :: rest =>
    b64Char (a / 4) :: b64Char (a % 4 * 16 + b / 16) ::
    b64Char (b % 16 * 4 + c / 64) :: b64Char (c % 64) :: toBase64 rest

/-- The raw diagnostic dump produced by `rawDump` (the JSON presentation is
dropped; the fields are the data it serializes, `ok`/`mode`/`method`/`note`
being the meta passed at the two `runMethod` fallback sites). -/
structure RawDump where
  ok : Bool
  mode : String
  method : String
  note : String
  bytes : Nat
  base64 : List Char
  hex : List Char

/-- `rawDump(u8, meta)` as called from `runMethod`'s fallback branches. -/
def rawDump (u8 : List Nat) (mode method : String) : RawDump :=
  ⟨true, mode, method, "No retTypes available, showing RAW bytes.",
   u8.length, toBase64 u8, toHex u8⟩

/-- Reply output: either the raw fallback dump, or a decode request against
the resolved return types (the decode itself is the external `IDL.decode`). -/
inductive ReplyOut where
  | raw (d : RawDump)
  | decodeWith (retTypes : List IDLType) (bytes : List Nat)

/-- The inbound step of `runMethod`: with no resolved return types the reply
bytes go to the raw dump, otherwise to the external decoder. -/
def decodeReplyOrRaw (retTypes : List IDLType) (u8 : List Nat)
    (mode method : String) : ReplyOut :=
  if retTypes.isEmpty then .raw (rawDump u8 mode method)
  else .decodeWith retTypes u8

/-- Value of one lowercase hex digit (inverse of `hexDigitCh`). -/
def hexVal (c : Char) : Nat :=
  if c.toNat ≥ 97 then c.toNat - 87 else c.toNat - 48

/-- Decoder for `toHex` output: two hex digits per byte. -/
def hexDecode : List Char → List Nat
  | c1 :: c2 :: rest => (hexVal c1 * 16 + hexVal c2) :: hexDecode rest
  | _ => []

/-- 6-bit value of a base64 alphabet character (inverse of `b64Char`). -/
def b64Val (c : Char) : Nat := b64Alphabet.indexOf c

/-- Decoder for `toBase64` output: 4-character groups back to 1-3 bytes,
recognising the `=` padding of the final group. -/
def b64Decode : List Char → List Nat
  | c1 :: c2 :: c3 :: c4 :: rest =>
    if c3 = '=' then [b64Val c1 * 4 + b64Val c2 / 16]
    else if c4 = '=' then
      [b64Val c1 * 4 + b64Val c2 / 16, b64Val c2 % 16 * 16 + b64Val c3 / 4]
    else
      (b64Val c1 * 4 + b64Val c2 / 16) ::
      (b64Val c2 % 16 * 16 + b64Val c3 / 4) ::
      (b64Val c3 % 4 * 64 + b64Val c4) :: b64Decode rest
  | _ => []

/-! ### Unfolding lemmas for `toIDL` -/

theorem toIDL_ref_seen {name : String} {aliases : List (String × TNode)}
    {seen : List String} (h : seen.contains name = true) :
    toIDL (.ref name) aliases seen = .reserved := by
  have h' : name ∈ seen := by simpa using h
  simp [toIDL, h']

theorem toIDL_ref_none {name : String} {aliases : List (String × TNode)}
    {seen : List String} (h1 : seen.contains name = false)
    (h2 : aliases.lookup name = none) :
    toIDL (.ref name) aliases seen = .reserved := by
  have hn : ¬ seen.contains name = true := by intro hc; rw [h1] at hc; simp at hc
  simp only [toIDL]
  rw [dif_neg hn]
  split
  · rfl
  · rename_i ali hl
    rw [h2] at hl
    cases hl

theorem toIDL_ref_some {name : String} {aliases : List (String × TNode)}
    {seen : List String} {ali : TNode} (h1 : seen.contains name = false)
    (h2 : aliases.lookup name = some ali) :
    toIDL (.ref name) aliases seen = toIDL ali aliases (name :: seen) := by
  have hn : ¬ seen.contains name = true := by intro hc; rw [h1] at hc; simp at hc
  simp only [toIDL]
  rw [dif_neg hn]
  split
  · rename_i hl
    rw [h2] at hl
    cases hl
  · rename_i ali' hl
    rw [h2] at hl
    cases hl
    rfl

theorem toIDL_prim {n : String} {aliases : List (String × TNode)}
    {seen : List String} : toIDL (.prim n) aliases seen = primIDL n := by
  simp [toIDL]

theorem toIDL_opt {inner : TNode} {aliases : List (String × TNode)}
    {seen : List String} :
    toIDL (.opt inner) aliases seen = .opt (toIDL inner aliases seen) := by
  simp [toIDL]

theorem toIDL_vec {inner : TNode} {aliases : List (String × TNode)}
    {seen : List String} :
    toIDL (.vec inner) aliases seen = .vec (toIDL inner aliases seen) := by
  simp [toIDL]

theorem toIDL_record {fields : List (String × TNode)} {b : Bool}
    {aliases : List (String × TNode)} {seen : List String} :
    toIDL (.record fields b) aliases seen =
      .record (fields.map (fun y => (y.1, toIDL y.2 aliases seen))) := by
  simp only [toIDL]
  congr 1
  exact List.attach_map_val fields (fun y => (y.1, toIDL y.2 aliases seen))

theorem toIDL_variant {alts : List (String × TNode)}
    {aliases : List (String × TNode)} {seen : List String} :
    toIDL (.variant alts) aliases seen =
      .variant (alts.map (fun y => (y.1, toIDL y.2 aliases seen))) := by
  simp only [toIDL]
  congr 1
  exact List.attach_map_val alts (fun y => (y.1, toIDL y.2 aliases seen))

/-! ### Termination of the resolver: `toIDLF` agrees with `toIDL` -/

theorem optionMapM_mono {α β : Type} {l : List α} {F G : α → Option β}
    (h : ∀ x ∈ l, ∀ r, F x = some r → G x = some r) :
    ∀ rs, l.mapM F = some rs → l.mapM G = some rs := by
  induction l with
  | nil => intro rs hrs; simpa using hrs
  | cons a l ih =>
    intro rs hrs
    rw [List.mapM_cons] at hrs ⊢
    cases hFa : F a with
    | none => rw [hFa] at hrs; simp at hrs
    | some b =>
      rw [hFa] at hrs
      cases hFl : l.mapM F with
      | none => rw [hFl] at hrs; simp at hrs
      | some bs =>
        rw [hFl] at hrs
        rw [h a (by simp) b hFa]
        rw [ih (fun x hx => h x (List.mem_cons_of_mem _ hx)) bs hFl]
        exact hrs

theorem optionMapM_eq_map {α β : Type} {l : List α} {F : α → Option β}
    {g : α → β} (h : ∀ x ∈ l, F x = some (g x)) :
    l.mapM F = some (l.map g) := by
  induction l with
  | nil => rfl
  | cons a l ih =>
    rw [List.mapM_cons, h a (by simp),
      ih (fun x hx => h x (List.mem_cons_of_mem _ hx))]
    rfl

theorem le_foldr_max (l : List Nat) : ∀ y ∈ l, y ≤ l.foldr max 0 := by
  induction l with
  | nil => simp
  | cons a l ih =>
    intro y hy
    rcases List.mem_cons.mp hy with rfl | h
    · exact le_max_left _ _
    · exact le_trans (ih y h) (le_max_right _ _)

theorem toIDLF_mono : ∀ (f g : Nat), f ≤ g → ∀ n a s r,
    toIDLF f n a s = some r → toIDLF g n a s = some r := by
  intro f
  induction f with
  | zero => intro g _ n a s r h; simp [toIDLF] at h
  | succ f ih =>
    intro g hfg n a s r h
    obtain ⟨g', rfl⟩ : ∃ g', g = g' + 1 := ⟨g - 1, by omega⟩
    have hfg' : f ≤ g' := by omega
    cases n with
    | ref name =>
      simp only [toIDLF] at h ⊢
      by_cases hs : s.contains name = true
      · rw [if_pos hs] at h ⊢; exact h
      · rw [if_neg hs] at h ⊢
        cases hl : List.lookup name a with
        | none => rw [hl] at h; exact h
        | some ali => rw [hl] at h; exact ih g' hfg' ali a (name :: s) r h
    | prim n => simpa [toIDLF] using h
    | opt inner =>
      simp only [toIDLF, Option.map_eq_some'] at h ⊢
      obtain ⟨v, hv, rfl⟩ := h
      exact ⟨v, ih g' hfg' inner a s v hv, rfl⟩
    | vec inner =>
      simp only [toIDLF, Option.map_eq_some'] at h ⊢
      obtain ⟨v, hv, rfl⟩ := h
      exact ⟨v, ih g' hfg' inner a s v hv, rfl⟩
    | record fields b =>
      simp only [toIDLF, Option.map_eq_some'] at h ⊢
      obtain ⟨vs, hvs, rfl⟩ := h
      refine ⟨vs, ?_, rfl⟩
      refine optionMapM_mono (fun x _ r hr => ?_) vs hvs
      simp only [Option.map_eq_some'] at hr ⊢
      obtain ⟨t, ht, rfl⟩ := hr
      exact ⟨t, ih g' hfg' x.2 a s t ht, rfl⟩
    | variant alts =>
      simp only [toIDLF, Option.map_eq_some'] at h ⊢
      obtain ⟨vs, hvs, rfl⟩ := h
      refine ⟨vs, ?_, rfl⟩
      refine optionMapM_mono (fun x _ r hr => ?_) vs hvs
      simp only [Option.map_eq_some'] at hr ⊢
      obtain ⟨t, ht, rfl⟩ := hr
      exact ⟨t, ih g' hfg' x.2 a s t ht, rfl⟩

theorem toIDL_fuel_exists : ∀ n a s, ∃ f, toIDLF f n a s = some (toIDL n a s) := by
  intro n a s
  induction n, a, s using toIDL.induct with
  | case1 a s name h =>
    refine ⟨1, ?_⟩
    simp only [toIDLF]
    rw [if_pos h, toIDL_ref_seen h]
  | case2 a s name h1 h2 =>
    have h1' : s.contains name = false := by simpa using h1
    refine ⟨1, ?_⟩
    simp only [toIDLF]
    rw [if_neg h1, h2, toIDL_ref_none h1' h2]
  | case3 a s name h1 ali hl ih =>
    obtain ⟨f, hf⟩ := ih
    have h1' : s.contains name = false := by simpa using h1
    refine ⟨f + 1, ?_⟩
    simp only [toIDLF]
    rw [if_neg h1, hl, toIDL_ref_some h1' hl]
    exact hf
  | case4 a s n => exact ⟨1, by simp [toIDLF, toIDL_prim]⟩
  | case5 a s inner ih =>
    obtain ⟨f, hf⟩ := ih
    exact ⟨f + 1, by simp [toIDLF, hf, toIDL_opt]⟩
  | case6 a s inner ih =>
    obtain ⟨f, hf⟩ := ih
    exact ⟨f + 1, by simp [toIDLF, hf, toIDL_vec]⟩
  | case7 a s fields b ih =>
    choose F hF using ih
    refine ⟨(fields.attach.map F).foldr max 0 + 1, ?_⟩
    simp only [toIDLF]
    rw [optionMapM_eq_map (g := fun y => (y.1, toIDL y.2 a s))
      (fun x hx => ?_), toIDL_record]
    · rfl
    · have hle : F ⟨x, hx⟩ ≤ (fields.attach.map F).foldr max 0 :=
        le_foldr_max _ _ (List.mem_map_of_mem F (List.mem_attach _ _))
      rw [toIDLF_mono _ _ hle _ _ _ _ (hF ⟨x, hx⟩)]
      rfl
  | case8 a s alts ih =>
    choose F hF using ih
    refine ⟨(alts.attach.map F).foldr max 0 + 1, ?_⟩
    simp only [toIDLF]
    rw [optionMapM_eq_map (g := fun y => (y.1, toIDL y.2 a s))
      (fun x hx => ?_), toIDL_variant]
    · rfl
    · have hle : F ⟨x, hx⟩ ≤ (alts.attach.map F).foldr max 0 :=
        le_foldr_max _ _ (List.mem_map_of_mem F (List.mem_attach _ _))
      rw [toIDLF_mono _ _ hle _ _ _ _ (hF ⟨x, hx⟩)]
      rfl

/-- A computed `toIDLF` value determines `toIDL` (fuel soundness). -/
theorem toIDLF_sound {f : Nat} {n : TNode} {a : List (String × TNode)}
    {s : List String} {r : IDLType} (h : toIDLF f n a s = some r) :
    toIDL n a s = r := by
  obtain ⟨g, hg⟩ := toIDL_fuel_exists n a s
  have h1 := toIDLF_mono f (max f g) (le_max_left _ _) n a s r h
  have h2 := toIDLF_mono g (max f g) (le_max_right _ _) n a s _ hg
  rw [h1] at h2
  exact (Option.some_injective _ h2).symm

/-! ### Hex and base64 round trips -/

theorem hexDigit_val : ∀ n, n < 16 → hexVal (hexDigitCh n) = n := by decide

theorem hexDecode_toHex (u8 : List Nat) (h : ∀ b ∈ u8, b < 256) :
    hexDecode (toHex u8) = u8 := by
  induction u8 with
  | nil => rfl
  | cons b l ih =>
    have hb : b < 256 := h b (by simp)
    show hexDecode (hexDigitCh (b / 16) :: hexDigitCh (b % 16) :: toHex l) = b :: l
    simp only [hexDecode]
    rw [hexDigit_val _ (by omega), hexDigit_val _ (by omega),
      ih (fun x hx => h x (by simp [hx]))]
    congr 1
    omega

theorem b64Char_val : ∀ n, n < 64 → b64Val (b64Char n) = n := by decide

theorem b64Char_ne_pad : ∀ n, n < 64 → ¬ b64Char n = '=' := by decide

theorem b64Decode_pad2 (c1 c2 : Char) :
    b64Decode [c1, c2, '=', '='] = [b64Val c1 * 4 + b64Val c2 / 16] := by
  simp [b64Decode]

theorem b64Decode_pad1 (c1 c2 c3 : Char) (h : ¬ c3 = '=') :
    b64Decode [c1, c2, c3, '='] =
      [b64Val c1 * 4 + b64Val c2 / 16,
       b64Val c2 % 16 * 16 + b64Val c3 / 4] := by
  simp [b64Decode, h]

theorem b64Decode_full (c1 c2 c3 c4 : Char) (rest : List Char)
    (h3 : ¬ c3 = '=') (h4 : ¬ c4 = '=') :
    b64Decode (c1 :: c2 :: c3 :: c4 :: rest) =
      (b64Val c1 * 4 + b64Val c2 / 16) ::
      (b64Val c2 % 16 * 16 + b64Val c3 / 4) ::
      (b64Val c3 % 4 * 64 + b64Val c4) :: b64Decode rest := by
  simp [b64Decode, h3, h4]

theorem b64Decode_toBase64 (u8 : List Nat) (h : ∀ b ∈ u8, b < 256) :
    b64Decode (toBase64 u8) = u8 := by
  induction u8 using toBase64.induct with
  | case1 => rfl
  | case2 a =>
    have ha : a < 256 := h a (by simp)
    show b64Decode [b64Char (a / 4), b64Char (a % 4 * 16), '=', '='] = [a]
    rw [b64Decode_pad2, b64Char_val (a / 4) (by omega),
      b64Char_val (a % 4 * 16) (by omega)]
    congr 1
    omega
  | case3 a b =>
    have ha : a < 256 := h a (by simp)
    have hb : b < 256 := h b (by simp)
    show b64Decode [b64Char (a / 4), b64Char (a % 4 * 16 + b / 16),
      b64Char (b % 16 * 4), '='] = [a, b]
    rw [b64Decode_pad1 _ _ _ (b64Char_ne_pad (b % 16 * 4) (by omega)),
      b64Char_val (a / 4) (by omega), b64Char_val (a % 4 * 16 + b / 16) (by omega),
      b64Char_val (b % 16 * 4) (by omega)]
    congr 1
    · omega
    · congr 1
      omega
  | case4 a b c rest ih =>
    have ha : a < 256 := h a (by simp)
    have hb : b < 256 := h b (by simp)
    have hc : c < 256 := h c (by simp)
    show b64Decode (b64Char (a / 4) :: b64Char (a % 4 * 16 + b / 16) ::
      b64Char (b % 16 * 4 + c / 64) :: b64Char (c % 64) :: toBase64 rest) =
      a :: b :: c :: rest
    rw [b64Decode_full _ _ _ _ _ (b64Char_ne_pad (b % 16 * 4 + c / 64) (by omega))
        (b64Char_ne_pad (c % 64) (by omega)),
      b64Char_val (a / 4) (by omega), b64Char_val (a % 4 * 16 + b / 16) (by omega),
      b64Char_val (b % 16 * 4 + c / 64) (by omega), b64Char_val (c % 64) (by omega),
      ih (fun x hx => h x (by simp [hx]))]
    congr 1
    · omega
    · congr 1
      · omega
      · congr 1
        omega

/-! ### Character-class and trimming lemmas -/

theorem dropWhile_eq_self_of_head {α : Type} {p : α → Bool} {l : List α}
    (h : ∀ c ∈ l.head?, p c = false) : l.dropWhile p = l := by
  cases l with
  | nil => rfl
  | cons a l =>
    rw [List.dropWhile_cons, if_neg]
    rw [h a (by simp)]
    simp

theorem trimChars_eq_self {l : List Char}
    (h1 : ∀ c ∈ l.head?, jsWS c = false)
    (h2 : ∀ c ∈ l.getLast?, jsWS c = false) : trimChars l = l := by
  unfold trimChars
  rw [dropWhile_eq_self_of_head h1, dropWhile_eq_self_of_head (by
    intro c hc
    rw [List.head?_reverse] at hc
    exact h2 c hc), List.reverse_reverse]

theorem digit_toNat_bounds {c : Char} (h : isDigitCh c = true) :
    48 ≤ c.toNat ∧ c.toNat ≤ 57 := by
  simpa [isDigitCh] using h

theorem not_jsWS_of_digit {c : Char} (h : isDigitCh c = true) : jsWS c = false := by
  obtain ⟨h1, h2⟩ := digit_toNat_bounds h
  simp only [jsWS, Bool.or_eq_false_iff, beq_eq_false_iff_ne, ne_eq,
    Bool.and_eq_false_iff, decide_eq_false_iff_not, not_le]
  omega

theorem char_beq_false_of_digit {d c0 : Char} (h : isDigitCh d = true)
    (hc : isDigitCh c0 = false) : (c0 == d) = false := by
  rw [beq_eq_false_iff_ne]
  intro he
  rw [he, h] at hc
  cases hc

theorem char_ne_of_digit {d c0 : Char} (h : isDigitCh d = true)
    (hc : isDigitCh c0 = false) : ¬ d = c0 := by
  intro he
  rw [← he, h] at hc
  cases hc

theorem cons_ne_lit_of_digit {d : Char} {l : List Char} {c0 : Char}
    {lt : List Char} (h : isDigitCh d = true) (h0 : isDigitCh c0 = false) :
    ¬ (d :: l) = (c0 :: lt) := by
  intro he
  injection he with he1 _
  exact char_ne_of_digit h h0 he1

theorem matchTextLit_not_quote {d : Char} {l : List Char} (h : ¬ d = '"') :
    matchTextLit (d :: l) = none := by
  rw [matchTextLit.eq_def]
  split
  · rename_i heq
    injection heq with he1 _
    exact absurd he1 h
  · rfl

theorem dropLit_none_head {c0 : Char} {lt l : List Char} {d : Char}
    (h : (c0 == d) = false) : dropLit (c0 :: lt) (d :: l) = none := by
  simp [dropLit, List.isPrefixOf, h]

theorem takeWhile_append_all {α : Type} {p : α → Bool} {l1 l2 : List α}
    (h : ∀ x ∈ l1, p x = true) :
    (l1 ++ l2).takeWhile p = l1 ++ l2.takeWhile p := by
  induction l1 with
  | nil => simp
  | cons a l ih =>
    rw [List.cons_append, List.takeWhile_cons, if_pos (by rw [h a (by simp)]),
      ih (fun x hx => h x (by simp [hx]))]
    rfl

theorem dropWhile_append_all {α : Type} {p : α → Bool} {l1 l2 : List α}
    (h : ∀ x ∈ l1, p x = true) :
    (l1 ++ l2).dropWhile p = l2.dropWhile p := by
  induction l1 with
  | nil => simp
  | cons a l ih =>
    rw [List.cons_append, List.dropWhile_cons, if_pos (by rw [h a (by simp)]),
      ih (fun x hx => h x (by simp [hx]))]

/-! ### Claims C1, C2, C3, C8 -/

/-- C1: resolving a `Ref` whose name is already in the in-progress set
returns the opaque reserved type immediately (the cycle-breaking rule); a
name absent from the alias table also resolves to reserved rather than
failing; and on the cyclic table of `type A = B; type B = A;`, resolving
`A` terminates with the reserved type. -/
theorem c1_cycle_and_undefined_resolve_reserved :
    (∀ (name : String) (aliases : List (String × TNode)) (seen : List String),
      seen.contains name = true → toIDL (.ref name) aliases seen = .reserved) ∧
    (∀ (name : String) (aliases : List (String × TNode)) (seen : List String),
      aliases.lookup name = none → toIDL (.ref name) aliases seen = .reserved) ∧
    toIDL (.ref "A") [("A", .ref "B"), ("B", .ref "A")] [] = .reserved := by
  refine ⟨fun name aliases seen h => toIDL_ref_seen h,
    fun name aliases seen h => ?_, ?_⟩
  · by_cases hs : seen.contains name = true
    · exact toIDL_ref_seen hs
    · exact toIDL_ref_none (by simpa using hs) h
  · exact toIDLF_sound (f := 3) rfl

theorem c1_witness :
    (["X"].contains "X" = true ∧
      toIDL (.ref "X") [] ["X"] = .reserved) ∧
    (([] : List (String × TNode)).lookup "Y" = none ∧
      toIDL (.ref "Y") [] [] = .reserved) :=
  ⟨⟨by decide, c1_cycle_and_undefined_resolve_reserved.1 "X" [] ["X"] (by decide)⟩,
   ⟨rfl, c1_cycle_and_undefined_resolve_reserved.2.1 "Y" [] [] rfl⟩⟩

/-- C2: the resolver is a total terminating function: for every type node,
alias table and in-progress set, the fuel-indexed restatement of its
recursion reaches a value (no failure mode) and that value is `toIDL`'s
result, the recursion being bounded by the unseen alias names and the node
structure. -/
theorem c2_resolver_terminates :
    ∀ (node : TNode) (aliases : List (String × TNode)) (seen : List String),
      ∃ fuel, toIDLF fuel node aliases seen = some (toIDL node aliases seen) :=
  toIDL_fuel_exists

/-- C3: whenever the parsed literal count differs from the signature's
argument-type count, the call value mapper fails with the arg-count-mismatch
error naming the expected and actual counts; the conversion/encoding stage
is never reached (the mapper checks the count first and returns). -/
theorem c3_arg_count_mismatch :
    ∀ (argTypes : List IDLType) (parsed : List ArgVal),
      parsed.length ≠ argTypes.length →
      mapCallArgs argTypes parsed =
        .error (.argCountMismatch argTypes.length parsed.length) := by
  intro argTypes parsed h
  simp [mapCallArgs, h]

theorem c3_witness :
    mapCallArgs [.nat64, .nat64] [.nat 1] = .error (.argCountMismatch 2 1) :=
  c3_arg_count_mismatch [.nat64, .nat64] [.nat 1] (by decide)

/-- C8: with an empty resolved return-type list the inbound mapper never
decodes and never fails: it returns the raw fallback dump (tagged by the
`raw` alternative with the fallback note), whose reported byte count equals
the reply length and whose hex and base64 fields decode back to exactly the
reply bytes. -/
theorem c8_empty_rets_raw_dump (u8 : List Nat) (mode method : String)
    (h : ∀ b ∈ u8, b < 256) :
    decodeReplyOrRaw [] u8 mode method = .raw (rawDump u8 mode method) ∧
    (rawDump u8 mode method).ok = true ∧
    (rawDump u8 mode method).note = "No retTypes available, showing RAW bytes." ∧
    (rawDump u8 mode method).bytes = u8.length ∧
    hexDecode (rawDump u8 mode method).hex = u8 ∧
    b64Decode (rawDump u8 mode method).base64 = u8 :=
  ⟨rfl, rfl, rfl, rfl, hexDecode_toHex u8 h, b64Decode_toBase64 u8 h⟩

/-! ### `Except` traversal lemmas and vector-grammar shape lemmas -/

theorem exceptMapM_ok_iff {α β ε : Type} (F : α → Except ε β) :
    ∀ (l : List α) (rs : List β),
      l.mapM F = .ok rs ↔ List.Forall₂ (fun x y => F x = .ok y) l rs := by
  intro l
  induction l with
  | nil =>
    intro rs
    constructor
    · intro h
      rw [List.mapM_nil] at h
      cases h
      exact List.Forall₂.nil
    · intro h
      cases h
      rfl
  | cons a l ih =>
    intro rs
    rw [List.mapM_cons]
    constructor
    · intro h
      cases hFa : F a with
      | error e => rw [hFa] at h; exact Except.noConfusion h
      | ok b =>
        rw [hFa] at h
        cases hFl : l.mapM F with
        | error e => rw [hFl] at h; exact Except.noConfusion h
        | ok bs =>
          rw [hFl] at h
          injection h with h1
          rw [← h1]
          exact List.Forall₂.cons hFa ((ih bs).mp hFl)
    · intro h
      cases h with
      | cons h1 h2 =>
        rw [h1, (ih _).mpr h2]
        rfl

theorem forall₂_mem_left {α β : Type} {R : α → β → Prop} :
    ∀ {l : List α} {rs : List β}, List.Forall₂ R l rs → ∀ x ∈ l, ∃ y, R x y := by
  intro l rs h
  induction h with
  | nil => simp
  | cons h1 _ ih =>
    intro x hx
    rcases List.mem_cons.mp hx with rfl | hx
    · exact ⟨_, h1⟩
    · exact ih x hx

theorem dropLit_some {lit s r : List Char} (h : dropLit lit s = some r) :
    s = lit ++ r := by
  unfold dropLit at h
  split at h
  · rename_i hp
    injection h with h1
    rw [← h1]
    obtain ⟨t2, rfl⟩ := List.isPrefixOf_iff_prefix.mp hp
    rw [List.drop_left]
  · cases h

theorem afterVecBrace_shape {t r : List Char} (h : afterVecBrace t = some r) :
    ∃ rest, t = 'v' :: rest := by
  unfold afterVecBrace at h
  cases hd : dropLit "vec".data t with
  | none => rw [hd] at h; cases h
  | some r1 =>
    have := dropLit_some hd
    exact ⟨'e' :: 'c' :: r1, by rw [this]; rfl⟩

theorem vecCapture_head {sOk : List Char → Bool} {t cap : List Char}
    (h : vecCapture sOk t = some cap) : ∃ rest, t = 'v' :: rest := by
  unfold vecCapture at h
  cases hb : afterVecBrace t with
  | none => rw [hb] at h; cases h
  | some r => exact afterVecBrace_shape hb

theorem matchPrincipalLit_head {d : Char} {l : List Char}
    (h : ('p' == d) = false) : matchPrincipalLit (d :: l) = none := by
  unfold matchPrincipalLit
  rw [show "principal".data = 'p' :: "rincipal".data from rfl, dropLit_none_head h]
  rfl

theorem matchOptPrincipalLit_head {d : Char} {l : List Char}
    (h : ('o' == d) = false) : matchOptPrincipalLit (d :: l) = none := by
  unfold matchOptPrincipalLit
  rw [show "opt".data = 'o' :: "pt".data from rfl, dropLit_none_head h]
  rfl

/-- For an element whose trimmed text starts with `v`, the first five
literal grammars all fail and the dispatch reaches the vector grammars. -/
theorem parseSingle_vec_head {s rest : List Char}
    (ht : trimChars s = 'v' :: rest) :
    parseSingleArgText s = parseVecForms s ('v' :: rest) := by
  simp only [parseSingleArgText]
  rw [ht]
  rw [if_neg (by simp)]
  rw [if_neg (by intro he; injection he with h1 _; exact absurd h1 (by decide))]
  rw [if_neg (by intro he; injection he with h1 _; exact absurd h1 (by decide))]
  rw [if_neg (by intro he; injection he with h1 _; exact absurd h1 (by decide))]
  rw [matchTextLit_not_quote (by decide)]
  rw [matchPrincipalLit_head (by decide)]
  rw [matchOptPrincipalLit_head (by decide)]
  rw [if_neg (by intro he; injection he with h1 _; exact absurd h1 (by decide))]

/-- Bridge between the per-element rule and the claim's phrasing. -/
theorem nat8Elem_ok_iff {p : List Char} {n : Nat} :
    nat8Elem p = .ok n ↔ decimalElem ["nat8".data] p = some n ∧ n ≤ 255 := by
  unfold nat8Elem
  cases hd : decimalElem ["nat8".data] p with
  | none =>
    constructor
    · intro h
      exact Except.noConfusion h
    · intro h
      exact Option.noConfusion h.1
  | some m =>
    show (if m > 255 then Except.error (LitError.nat8OutOfRange m)
      else Except.ok m) = Except.ok n ↔ some m = some n ∧ n ≤ 255
    by_cases hm : m > 255
    · rw [if_pos hm]
      constructor
      · intro h
        exact Except.noConfusion h
      · intro h
        injection h.1 with h1
        omega
    · rw [if_neg hm]
      constructor
      · intro h
        injection h with h
        rw [h] at hm ⊢
        exact ⟨rfl, by omega⟩
      · intro h
        injection h.1 with h1
        rw [h1]

/-- C10: a bare scalar decimal literal suffixed `: nat8` is not range
checked: for every nonempty digit string `d`, the element `d : nat8` parses
to `Nat` of its (arbitrary-precision) value, with no 0..255 bound. -/
theorem c10_scalar_nat8_not_range_checked :
    ∀ ds : List Char, ds ≠ [] → (∀ c ∈ ds, isDigitCh c = true) →
      parseSingleArgText (ds ++ " : nat8".data) = .ok (.nat (digitsVal ds)) := by
  intro ds hne hdig
  obtain ⟨d, ds2, rfl⟩ : ∃ d ds2, ds = d :: ds2 := by
    cases ds with
    | nil => exact absurd rfl hne
    | cons a l => exact ⟨a, l, rfl⟩
  have hd : isDigitCh d = true := hdig d (by simp)
  have htrim : trimChars ((d :: ds2) ++ " : nat8".data) =
      (d :: ds2) ++ " : nat8".data := by
    apply trimChars_eq_self
    · intro c hc
      simp only [List.cons_append, List.head?_cons, Option.mem_def,
        Option.some.injEq] at hc
      subst hc
      exact not_jsWS_of_digit hd
    · intro c hc
      rw [List.getLast?_append] at hc
      have h8 : (" : nat8".data).getLast? = some '8' := rfl
      rw [h8] at hc
      simp only [Option.or_some, Option.mem_def, Option.some.injEq] at hc
      rw [← hc]
      decide
  have hq : ¬ d = '"' := char_ne_of_digit hd (by decide)
  have hbeqP : ('p' == d) = false := char_beq_false_of_digit hd (by decide)
  have hbeqO : ('o' == d) = false := char_beq_false_of_digit hd (by decide)
  have hbeqV : ('v' == d) = false := char_beq_false_of_digit hd (by decide)
  have hprin : matchPrincipalLit ((d :: ds2) ++ " : nat8".data) = none := by
    unfold matchPrincipalLit
    rw [show "principal".data = 'p' :: "rincipal".data from rfl,
      List.cons_append, dropLit_none_head hbeqP]
    rfl
  have hopt : matchOptPrincipalLit ((d :: ds2) ++ " : nat8".data) = none := by
    unfold matchOptPrincipalLit
    rw [show "opt".data = 'o' :: "pt".data from rfl,
      List.cons_append, dropLit_none_head hbeqO]
    rfl
  have hbrace : afterVecBrace ((d :: ds2) ++ " : nat8".data) = none := by
    unfold afterVecBrace
    rw [show "vec".data = 'v' :: "ec".data from rfl,
      List.cons_append, dropLit_none_head hbeqV]
    rfl
  have hv8 : vecNat8Capture ((d :: ds2) ++ " : nat8".data) = none := by
    unfold vecNat8Capture vecCapture
    rw [hbrace]
    rfl
  have hva : vecAnyCapture ((d :: ds2) ++ " : nat8".data) = none := by
    unfold vecAnyCapture vecCapture
    rw [hbrace]
    rfl
  have hvg : vecGenCapture ((d :: ds2) ++ " : nat8".data) = none := by
    unfold vecGenCapture vecCapture
    rw [hbrace]
    rfl
  have hdec : decimalElem (natSuffixes ++ ["nat8".data])
      ((d :: ds2) ++ " : nat8".data) = some (digitsVal (d :: ds2)) := by
    unfold decimalElem
    rw [show (((d :: ds2) ++ " : nat8".data).takeWhile isDigitCh) =
        (d :: ds2) ++ ((" : nat8".data).takeWhile isDigitCh) from
      takeWhile_append_all hdig]
    rw [show (" : nat8".data).takeWhile isDigitCh = [] from rfl]
    rw [List.append_nil]
    rw [if_neg (by simp)]
    rw [show ((d :: ds2) ++ " : nat8".data).drop (d :: ds2).length =
        " : nat8".data from List.drop_left _ _]
    rw [if_pos (by decide)]
  have hnull : ¬ ((d :: ds2) ++ " : nat8".data) = "null".data :=
    cons_ne_lit_of_digit hd (by decide)
  have htrue : ¬ ((d :: ds2) ++ " : nat8".data) = "true".data :=
    cons_ne_lit_of_digit hd (by decide)
  have hfalse : ¬ ((d :: ds2) ++ " : nat8".data) = "false".data :=
    cons_ne_lit_of_digit hd (by decide)
  have hoptnull : ¬ ((d :: ds2) ++ " : nat8".data) = "opt null".data :=
    cons_ne_lit_of_digit hd (by decide)
  have htext : matchTextLit ((d :: ds2) ++ " : nat8".data) = none :=
    matchTextLit_not_quote hq
  simp only [parseSingleArgText]
  rw [htrim]
  rw [if_neg (by simp)]
  rw [if_neg hnull, if_neg htrue, if_neg hfalse]
  rw [htext, hprin, hopt, if_neg hoptnull]
  simp only [parseVecForms]
  rw [hv8, hva, hvg, hdec]

theorem c10_witness :
    ['2', '5', '6'] ≠ [] ∧
    parseSingleArgText ("256 : nat8".data) = .ok (.nat 256) :=
  ⟨by decide, c10_scalar_nat8_not_range_checked ['2', '5', '6'] (by decide)
    (by decide)⟩

theorem findLastBrace_decomp {sOk : List Char → Bool} :
    ∀ (rev acc cap suf : List Char),
      findLastBrace sOk rev acc = some (cap, suf) →
      rev.reverse ++ acc = cap ++ '\x7d' :: suf ∧ sOk suf = true := by
  intro rev
  induction rev with
  | nil => intro acc cap suf h; cases h
  | cons c revRest ih =>
    intro acc cap suf h
    unfold findLastBrace at h
    by_cases hc : c = '\x7d' ∧ sOk acc = true
    · rw [if_pos hc] at h
      injection h with h
      cases h
      constructor
      · rw [List.reverse_cons, hc.1, List.append_assoc]
        rfl
      · exact hc.2
    · rw [if_neg hc] at h
      have h2 := ih (c :: acc) cap suf h
      constructor
      · rw [List.reverse_cons, List.append_assoc]
        exact h2.1
      · exact h2.2

theorem getLast?_append_right {c : Char} {l1 l2 : List Char}
    (h : l2.getLast? = some c) : (l1 ++ l2).getLast? = some c := by
  rw [List.getLast?_append, h]
  rfl

theorem getLast?_cons_right {c a : Char} {l : List Char}
    (h : l.getLast? = some c) : (a :: l).getLast? = some c := by
  rw [show a :: l = [a] ++ l from rfl]
  exact getLast?_append_right h

theorem vecCapture_decomp {sOk : List Char → Bool} {t cap : List Char}
    (h : vecCapture sOk t = some cap) :
    ∃ r suf, afterVecBrace t = some r ∧ r = cap ++ '\x7d' :: suf ∧
      sOk suf = true := by
  unfold vecCapture at h
  cases hb : afterVecBrace t with
  | none => rw [hb] at h; cases h
  | some r =>
    rw [hb] at h
    have h' : (findLastBrace sOk r.reverse []).bind (fun p => some p.1) =
        some cap := h
    cases hf : findLastBrace sOk r.reverse [] with
    | none => rw [hf] at h'; cases h'
    | some p =>
      rw [hf] at h'
      injection h' with h
      obtain ⟨h1, h2⟩ := findLastBrace_decomp r.reverse [] p.1 p.2 (by rw [hf])
      rw [List.reverse_reverse, List.append_nil] at h1
      exact ⟨r, p.2, rfl, by rw [← h]; exact h1, h2⟩

theorem colonWordSuffix_nat8_last {suf : List Char}
    (h : colonWordSuffix ["nat8".data] suf = true) :
    suf.getLast? = some '8' := by
  unfold colonWordSuffix at h
  split at h
  · rename_i r heq
    have hsuffix := List.dropWhile_suffix (l := suf) jsWS
    rw [heq] at hsuffix
    obtain ⟨pre, hpre⟩ := hsuffix
    have hcont : r.dropWhile jsWS = "nat8".data := by
      have h2 := h
      simp only [List.contains_cons, List.contains_nil, Bool.or_false] at h2
      exact eq_of_beq h2
    have hsuffix2 := List.dropWhile_suffix (l := r) jsWS
    rw [hcont] at hsuffix2
    obtain ⟨pre2, hpre2⟩ := hsuffix2
    have hr : r.getLast? = some '8' := by
      rw [← hpre2]
      exact getLast?_append_right rfl
    rw [← hpre]
    exact getLast?_append_right (getLast?_cons_right hr)
  · cases h

theorem vecNat8Capture_none_of_any {t cap : List Char}
    (h : vecAnyCapture t = some cap) : vecNat8Capture t = none := by
  cases hn : vecNat8Capture t with
  | none => rfl
  | some cap2 =>
    exfalso
    obtain ⟨r, suf, hb, hr, hok⟩ := vecCapture_decomp h
    obtain ⟨r2, suf2, hb2, hr2, hok2⟩ := vecCapture_decomp hn
    rw [hb] at hb2
    injection hb2 with hb2
    have hsuf : suf = [] := List.isEmpty_iff.mp hok
    have h8 : suf2.getLast? = some '8' := colonWordSuffix_nat8_last hok2
    have hlast1 : r.getLast? = some '\x7d' := by
      rw [hr, hsuf, List.getLast?_concat]
    have hlast2 : r.getLast? = some '8' := by
      rw [hb2, hr2]
      exact getLast?_append_right (getLast?_cons_right h8)
    rw [hlast1] at hlast2
    injection hlast2 with hlast2
    exact absurd hlast2 (by decide)

/-- C5: for an argument element of the `vec { ... } : nat8` shape (with a
nonempty body), parsing succeeds with a `VecNat8` of the element values
exactly when every element is a bare decimal integer (optionally suffixed
`: nat8`) in 0..255; when it succeeds the value is always a `VecNat8`; an
out-of-range element makes it fail — in particular
`vec { 1; 2; 256 } : nat8` fails with the out-of-range error. -/
theorem c5_vec_nat8_range_checked :
    (∀ (s cap : List Char), vecNat8Capture (trimChars s) = some cap →
      (trimChars cap).isEmpty = false →
      ((∀ vals, parseSingleArgText s = .ok (.vecNat8 vals) ↔
        List.Forall₂ (fun p n => decimalElem ["nat8".data] p = some n ∧ n ≤ 255)
          (parseVecBody (trimChars cap)) vals) ∧
       (∀ v, parseSingleArgText s = .ok v → ∃ vals, v = .vecNat8 vals) ∧
       (∀ p ∈ parseVecBody (trimChars cap), ∀ n,
         decimalElem ["nat8".data] p = some n → 255 < n →
         ∃ e, parseSingleArgText s = .error e))) ∧
    parseSingleArgText "vec \x7b 1; 2; 256 \x7d : nat8".data =
      .error (.nat8OutOfRange 256) := by
  constructor
  · intro s cap hcap hbody
    obtain ⟨rest, ht⟩ := vecCapture_head hcap
    rw [ht] at hcap
    have hred : parseSingleArgText s =
        ((parseVecBody (trimChars cap)).mapM nat8Elem).bind
          (fun nums => Except.ok (.vecNat8 nums)) := by
      rw [parseSingle_vec_head ht]
      simp only [parseVecForms]
      rw [hcap]
      show (if (trimChars cap).isEmpty = true then Except.ok (ArgVal.vecNat8 [])
        else do
          let nums ← (parseVecBody (trimChars cap)).mapM nat8Elem
          Except.ok (ArgVal.vecNat8 nums)) = _
      rw [if_neg (by rw [hbody]; simp)]
      rfl
    refine ⟨?_, ?_, ?_⟩
    · intro vals
      rw [hred]
      constructor
      · intro h
        cases hm : (parseVecBody (trimChars cap)).mapM nat8Elem with
        | error e => rw [hm] at h; exact Except.noConfusion h
        | ok nums =>
          rw [hm] at h
          injection h with h
          injection h with h
          rw [← h]
          exact List.Forall₂.imp (fun _ _ hab => nat8Elem_ok_iff.mp hab)
            ((exceptMapM_ok_iff nat8Elem _ nums).mp hm)
      · intro h
        have h2 : List.Forall₂ (fun x y => nat8Elem x = .ok y)
            (parseVecBody (trimChars cap)) vals :=
          List.Forall₂.imp (fun _ _ hab => nat8Elem_ok_iff.mpr hab) h
        rw [(exceptMapM_ok_iff nat8Elem _ vals).mpr h2]
        rfl
    · intro v hv
      rw [hred] at hv
      cases hm : (parseVecBody (trimChars cap)).mapM nat8Elem with
      | error e => rw [hm] at hv; exact Except.noConfusion hv
      | ok nums =>
        rw [hm] at hv
        injection hv with hv
        exact ⟨nums, hv.symm⟩
    · intro p hp n hdn hgt
      cases hm : (parseVecBody (trimChars cap)).mapM nat8Elem with
      | error e => exact ⟨e, by rw [hred, hm]; rfl⟩
      | ok nums =>
        obtain ⟨y, hy⟩ := forall₂_mem_left
          ((exceptMapM_ok_iff nat8Elem _ nums).mp hm) p hp
        rw [nat8Elem_ok_iff, hdn] at hy
        injection hy.1 with he
        have := hy.2
        omega
  · rfl

theorem c5_witness :
    parseSingleArgText "vec \x7b 1; 2 \x7d : nat8".data =
      .ok (.vecNat8 [1, 2]) :=
  ((c5_vec_nat8_range_checked.1 "vec \x7b 1; 2 \x7d : nat8".data " 1; 2 ".data
      rfl rfl).1 [1, 2]).mpr
    (List.Forall₂.cons (by decide) (List.Forall₂.cons (by decide)
      List.Forall₂.nil))

/-- C6: the literal grammars are tried in fixed priority order and the
first match wins: an element matching both the `nat8`-suffixed vector form
and the generic integer-vector shape parses (when it parses) to a
`VecNat8`, never a `VecNat`; an element matching both the vec-principal
form (a `vec { ... }` group containing `principal "`) and the generic
vector shape parses to a `VecPrincipal`. -/
theorem c6_priority_first_match_wins :
    (∀ (s cap : List Char) (v : ArgVal),
      vecNat8Capture (trimChars s) = some cap →
      intVecShape (trimChars s) = true →
      parseSingleArgText s = .ok v → ∃ bs, v = .vecNat8 bs) ∧
    (∀ (s cap : List Char) (v : ArgVal),
      vecAnyCapture (trimChars s) = some cap →
      hasPrincQuote none (trimChars s) = true →
      (vecGenCapture (trimChars s)).isSome = true →
      parseSingleArgText s = .ok v → ∃ ps, v = .vecPrincipal ps) := by
  constructor
  · intro s cap v hcap _ hv
    obtain ⟨rest, ht⟩ := vecCapture_head hcap
    rw [ht] at hcap
    rw [parseSingle_vec_head ht] at hv
    simp only [parseVecForms] at hv
    rw [hcap] at hv
    replace hv : (if (trimChars cap).isEmpty = true then
        Except.ok (ArgVal.vecNat8 [])
      else do
        let nums ← (parseVecBody (trimChars cap)).mapM nat8Elem
        Except.ok (ArgVal.vecNat8 nums)) = Except.ok v := hv
    by_cases hbody : (trimChars cap).isEmpty = true
    · rw [if_pos hbody] at hv
      injection hv with hv
      exact ⟨[], hv.symm⟩
    · rw [if_neg hbody] at hv
      replace hv : ((parseVecBody (trimChars cap)).mapM nat8Elem).bind
          (fun nums => Except.ok (ArgVal.vecNat8 nums)) = Except.ok v := hv
      cases hm : (parseVecBody (trimChars cap)).mapM nat8Elem with
      | error e => rw [hm] at hv; exact Except.noConfusion hv
      | ok nums => rw [hm] at hv; injection hv with hv; exact ⟨nums, hv.symm⟩
  · intro s cap v hany hpq _ hv
    obtain ⟨rest, ht⟩ := vecCapture_head hany
    rw [ht] at hany hpq
    rw [parseSingle_vec_head ht] at hv
    simp only [parseVecForms] at hv
    rw [vecNat8Capture_none_of_any hany, hany, hpq] at hv
    replace hv : (if (trimChars cap).isEmpty = true then
        Except.ok (ArgVal.vecPrincipal [])
      else do
        let ps ← (parseVecBody (trimChars cap)).mapM vecPrincElem
        Except.ok (ArgVal.vecPrincipal ps)) = Except.ok v := hv
    by_cases hbody : (trimChars cap).isEmpty = true
    · rw [if_pos hbody] at hv
      injection hv with hv
      exact ⟨[], hv.symm⟩
    · rw [if_neg hbody] at hv
      replace hv : ((parseVecBody (trimChars cap)).mapM vecPrincElem).bind
          (fun ps => Except.ok (ArgVal.vecPrincipal ps)) = Except.ok v := hv
      cases hm : (parseVecBody (trimChars cap)).mapM vecPrincElem with
      | error e => rw [hm] at hv; exact Except.noConfusion hv
      | ok ps => rw [hm] at hv; injection hv with hv; exact ⟨ps, hv.symm⟩

theorem c6_witness :
    (∃ bs, (ArgVal.vecNat8 [7] : ArgVal) = .vecNat8 bs) ∧
    (∃ ps, (ArgVal.vecPrincipal ["aaaaa-aa"] : ArgVal) = .vecPrincipal ps) :=
  ⟨c6_priority_first_match_wins.1 "vec \x7b 7 \x7d : nat8".data " 7 ".data
      (.vecNat8 [7]) rfl rfl rfl,
   c6_priority_first_match_wins.2 "vec \x7b principal \"aaaaa-aa\" \x7d".data
      " principal \"aaaaa-aa\" ".data (.vecPrincipal ["aaaaa-aa"])
      rfl rfl rfl rfl⟩

theorem c8_witness :
    decodeReplyOrRaw [] [0, 171, 255] "query" "m" =
      .raw (rawDump [0, 171, 255] "query" "m") ∧
    (rawDump [0, 171, 255] "query" "m").ok = true ∧
    (rawDump [0, 171, 255] "query" "m").note =
      "No retTypes available, showing RAW bytes." ∧
    (rawDump [0, 171, 255] "query" "m").bytes = [0, 171, 255].length ∧
    hexDecode (rawDump [0, 171, 255] "query" "m").hex = [0, 171, 255] ∧
    b64Decode (rawDump [0, 171, 255] "query" "m").base64 = [0, 171, 255] :=
  c8_empty_rets_raw_dump [0, 171, 255] "query" "m" (by decide)

/-! ### Claim C7: extraction output is sorted by method name -/

theorem strLeb_trans : ∀ (x y z : List Char),
    strLeb x y = true → strLeb y z = true → strLeb x z = true := by
  intro x
  induction x with
  | nil => intro y z _ _; rfl
  | cons a as ih =>
    intro y z hxy hyz
    cases y with
    | nil => simp [strLeb] at hxy
    | cons b bs =>
      cases z with
      | nil => simp [strLeb] at hyz
      | cons c cs =>
        simp only [strLeb] at hxy hyz ⊢
        split_ifs at hxy hyz ⊢ <;> first
          | rfl
          | omega
          | (exact ih bs cs hxy hyz)

theorem strLeb_total : ∀ (x y : List Char),
    (strLeb x y || strLeb y x) = true := by
  intro x
  induction x with
  | nil => intro y; rfl
  | cons a as ih =>
    intro y
    cases y with
    | nil => rfl
    | cons b bs =>
      simp only [strLeb]
      split_ifs <;> first
        | rfl
        | omega
        | (simpa using ih bs)

theorem sigLE_trans : ∀ (a b c : MethodSig),
    sigLE a b → sigLE b c → sigLE a c := by
  intro a b c hab hbc
  exact strLeb_trans _ _ _ hab hbc

theorem sigLE_total : ∀ (a b : MethodSig), sigLE a b || sigLE b a := by
  intro a b
  exact strLeb_total _ _

unseal stripComments tokAux List.merge List.mergeSort in
/-- C7: for every interface text (and fuel), the method-signature list
produced by extraction is sorted lexicographically by method name; in
particular declaring `b` before `a` yields the names in the order
`a`, `b`. -/
theorem c7_extraction_sorted :
    (∀ (fuel : Nat) (didText : List Char) (out : List MethodSig),
      extractMethodSigs fuel didText = .ok out →
      List.Pairwise (fun a b => strLeb a.name.data b.name.data = true) out) ∧
    (extractMethodSigs 100
        "service : \x7b b : () -> (); a : () -> (); \x7d".data).map
      (fun l => l.map (fun m => m.name)) = .ok ["a", "b"] := by
  constructor
  · intro fuel didText out h
    unfold extractMethodSigs at h
    cases hp : parseTypeAliasesAndService fuel didText with
    | error e => rw [hp] at h; cases h
    | ok r =>
      rw [hp] at h
      injection h with h
      rw [← h]
      exact List.sorted_mergeSort sigLE_trans sigLE_total _
  · rfl

unseal stripComments tokAux List.merge List.mergeSort in
theorem c7_witness :
    List.Pairwise (fun (a b : MethodSig) => strLeb a.name.data b.name.data = true)
      [⟨"a", .update, [], [], "a : () -> ();"⟩,
       ⟨"b", .update, [], [], "b : () -> ();"⟩] :=
  c7_extraction_sorted.1 100
    "service : \x7b b : () -> (); a : () -> (); \x7d".data _ rfl

/-! ### Claim C9: parsing without a `service` block -/

theorem tail_suffix {α : Type} (l : List α) : l.tail <:+ l := by
  cases l with
  | nil => exact List.suffix_refl _
  | cons a l => exact List.suffix_cons a l

theorem matchIdT_suffix {v : String} {toks t1 : List Tok}
    (h : matchIdT v toks = some t1) : t1 <:+ toks := by
  unfold matchIdT at h
  split at h
  · split at h
    · injection h with h
      rw [← h]
      exact List.suffix_cons _ _
    · cases h
  · cases h

theorem matchIdT_mem {v : String} {toks t1 : List Tok}
    (h : matchIdT v toks = some t1) : Tok.id v ∈ toks := by
  unfold matchIdT at h
  split at h
  · split at h
    · rename_i w rest hw
      rw [hw]
      exact List.mem_cons_self _ _
    · cases h
  · cases h

theorem matchSymT_suffix {v : Char} {toks t1 : List Tok}
    (h : matchSymT v toks = some t1) : t1 <:+ toks := by
  unfold matchSymT at h
  split at h
  · split at h
    · injection h with h
      rw [← h]
      exact List.suffix_cons _ _
    · cases h
  · cases h

theorem getD_matchSymT_suffix (v : Char) (t : List Tok) :
    ((matchSymT v t).getD t) <:+ t := by
  cases h : matchSymT v t with
  | none => exact List.suffix_refl _
  | some t2 => simpa using matchSymT_suffix h

theorem expectSymT_suffix {v : Char} {toks t1 : List Tok}
    (h : expectSymT v toks = .ok t1) : t1 <:+ toks := by
  unfold expectSymT at h
  split at h
  · split at h
    · injection h with h
      rw [← h]
      exact List.suffix_cons _ _
    · cases h
  · cases h

theorem expectIdT_suffix {toks : List Tok} {w : String} {t1 : List Tok}
    (h : expectIdT toks = .ok (w, t1)) : t1 <:+ toks := by
  unfold expectIdT at h
  split at h
  · injection h with h
    injection h with _ h
    rw [← h]
    exact List.suffix_cons _ _
  · cases h

theorem parse_type_suffix : ∀ fuel : Nat,
    (∀ toks ty rest, parseTypeF fuel toks = .ok (ty, rest) → rest <:+ toks) ∧
    (∀ toks fields pos b ty rest,
      parseRecF fuel toks fields pos b = .ok (ty, rest) → rest <:+ toks) ∧
    (∀ toks alts ty rest,
      parseVarF fuel toks alts = .ok (ty, rest) → rest <:+ toks) := by
  intro fuel
  induction fuel with
  | zero =>
    refine ⟨?_, ?_, ?_⟩
    · intro toks ty rest h; cases h
    · intro toks fields pos b ty rest h; cases h
    · intro toks alts ty rest h; cases h
  | succ fuel ih =>
    obtain ⟨ihT, ihR, ihV⟩ := ih
    refine ⟨?_, ?_, ?_⟩
    · intro toks ty rest h
      unfold parseTypeF at h
      split at h
      · rename_i t1 h1
        cases hp : parseTypeF fuel t1 with
        | error e => rw [hp] at h; exact Except.noConfusion h
        | ok q =>
          rw [hp] at h
          injection h with h
          injection h with _ h
          rw [← h]
          exact (ihT t1 q.1 q.2 (by rw [hp])).trans (matchIdT_suffix h1)
      · split at h
        · rename_i t1 h2
          cases hp : parseTypeF fuel t1 with
          | error e => rw [hp] at h; exact Except.noConfusion h
          | ok q =>
            rw [hp] at h
            injection h with h
            injection h with _ h
            rw [← h]
            exact (ihT t1 q.1 q.2 (by rw [hp])).trans (matchIdT_suffix h2)
        · split at h
          · rename_i t1 h3
            cases he : expectSymT '\x7b' t1 with
            | error e => rw [he] at h; exact Except.noConfusion h
            | ok t2 =>
              rw [he] at h
              exact ((ihR t2 [] 0 false ty rest h).trans
                (expectSymT_suffix he)).trans (matchIdT_suffix h3)
          · split at h
            · rename_i t1 h4
              cases he : expectSymT '\x7b' t1 with
              | error e => rw [he] at h; exact Except.noConfusion h
              | ok t2 =>
                rw [he] at h
                exact ((ihV t2 [] ty rest h).trans
                  (expectSymT_suffix he)).trans (matchIdT_suffix h4)
            · cases hi : expectIdT toks with
              | error e => rw [hi] at h; exact Except.noConfusion h
              | ok p =>
                rw [hi] at h
                obtain ⟨idv, t1⟩ := p
                replace h : (if idv ∈ primNames
                    then Except.ok (TNode.prim idv, t1)
                    else Except.ok (TNode.ref idv, t1)) =
                    Except.ok (ty, rest) := h
                by_cases hpm : idv ∈ primNames
                · rw [if_pos hpm] at h
                  injection h with h
                  injection h with _ h
                  rw [← h]
                  exact expectIdT_suffix hi
                · rw [if_neg hpm] at h
                  injection h with h
                  injection h with _ h
                  rw [← h]
                  exact expectIdT_suffix hi
    · intro toks fields posIdx b ty rest h
      unfold parseRecF at h
      split at h
      · rename_i t1 h1
        injection h with h
        injection h with _ h
        rw [← h]
        exact matchSymT_suffix h1
      · split at h
        · rename_i idv hpk
          split at h
          · rename_i t2 h2
            cases hp : parseTypeF fuel t2 with
            | error e => rw [hp] at h; exact Except.noConfusion h
            | ok q =>
              rw [hp] at h
              replace h : parseRecF fuel ((matchSymT ';' q.2).getD q.2)
                  (fields ++ [(idv, q.1)]) posIdx b = .ok (ty, rest) := h
              refine (ihR _ _ _ _ ty rest h).trans ?_
              refine (getD_matchSymT_suffix ';' q.2).trans ?_
              refine (ihT t2 q.1 q.2 (by rw [hp])).trans ?_
              exact (matchSymT_suffix h2).trans (tail_suffix toks)
          · cases hp : parseTypeF fuel toks with
            | error e => rw [hp] at h; exact Except.noConfusion h
            | ok q =>
              rw [hp] at h
              replace h : parseRecF fuel ((matchSymT ';' q.2).getD q.2)
                  (fields ++ [(toString posIdx, q.1)]) (posIdx+1) true =
                  .ok (ty, rest) := h
              refine (ihR _ _ _ _ ty rest h).trans ?_
              refine (getD_matchSymT_suffix ';' q.2).trans ?_
              exact ihT toks q.1 q.2 (by rw [hp])
        · cases hp : parseTypeF fuel toks with
          | error e => rw [hp] at h; exact Except.noConfusion h
          | ok q =>
            rw [hp] at h
            replace h : parseRecF fuel ((matchSymT ';' q.2).getD q.2)
                (fields ++ [(toString posIdx, q.1)]) (posIdx+1) true =
                .ok (ty, rest) := h
            refine (ihR _ _ _ _ ty rest h).trans ?_
            refine (getD_matchSymT_suffix ';' q.2).trans ?_
            exact ihT toks q.1 q.2 (by rw [hp])
    · intro toks alts ty rest h
      unfold parseVarF at h
      split at h
      · rename_i t1 h1
        injection h with h
        injection h with _ h
        rw [← h]
        exact matchSymT_suffix h1
      · cases hi : expectIdT toks with
        | error e => rw [hi] at h; exact Except.noConfusion h
        | ok p =>
          rw [hi] at h
          obtain ⟨name, t1⟩ := p
          replace h : (match matchSymT ':' t1 with
            | some t2 => do
              let (tyv, t3) ← parseTypeF fuel t2
              let t4 := (matchSymT ';' t3).getD t3
              parseVarF fuel t4 (alts ++ [(name, tyv)])
            | none =>
              parseVarF fuel ((matchSymT ';' t1).getD t1)
                (alts ++ [(name, TNode.prim "null")])) =
              Except.ok (ty, rest) := h
          split at h
          · rename_i t2 h2
            cases hp : parseTypeF fuel t2 with
            | error e => rw [hp] at h; exact Except.noConfusion h
            | ok q =>
              rw [hp] at h
              replace h : parseVarF fuel ((matchSymT ';' q.2).getD q.2)
                  (alts ++ [(name, q.1)]) = .ok (ty, rest) := h
              refine (ihV _ _ ty rest h).trans ?_
              refine (getD_matchSymT_suffix ';' q.2).trans ?_
              exact ((ihT t2 q.1 q.2 (by rw [hp])).trans
                (matchSymT_suffix h2)).trans (expectIdT_suffix hi)
          · refine (ihV _ _ ty rest h).trans ?_
            exact (getD_matchSymT_suffix ';' t1).trans (expectIdT_suffix hi)

theorem mainLoopF_no_service : ∀ (fuel : Nat) (toks : List Tok)
    (aliases : List (String × TNode)) (r : ParseOut),
    Tok.id "service" ∉ toks →
    mainLoopF fuel toks aliases = .ok r → r.methodsRaw = [] := by
  intro fuel
  induction fuel with
  | zero => intro toks aliases r _ h; cases h
  | succ fuel ih =>
    intro toks aliases r hns h
    unfold mainLoopF at h
    split at h
    · injection h with h
      rw [← h]
    · split at h
      · rename_i t1 hty
        cases hei : expectIdT t1 with
        | error e => rw [hei] at h; exact Except.noConfusion h
        | ok p =>
          rw [hei] at h
          obtain ⟨name, t2⟩ := p
          replace h : (do
              let t3 ← expectSymT '=' t2
              let (tyv, t4) ← parseTypeF fuel t3
              mainLoopF fuel ((matchSymT ';' t4).getD t4)
                (setAlias aliases name tyv)) = Except.ok r := h
          cases hes : expectSymT '=' t2 with
          | error e => rw [hes] at h; exact Except.noConfusion h
          | ok t3 =>
            rw [hes] at h
            replace h : (do
                let (tyv, t4) ← parseTypeF fuel t3
                mainLoopF fuel ((matchSymT ';' t4).getD t4)
                  (setAlias aliases name tyv)) = Except.ok r := h
            cases hpt : parseTypeF fuel t3 with
            | error e => rw [hpt] at h; exact Except.noConfusion h
            | ok q =>
              rw [hpt] at h
              replace h : mainLoopF fuel ((matchSymT ';' q.2).getD q.2)
                  (setAlias aliases name q.1) = Except.ok r := h
              refine ih _ _ r (fun hmem => hns ?_) h
              have s1 : ((matchSymT ';' q.2).getD q.2) <:+ toks :=
                ((getD_matchSymT_suffix ';' q.2).trans
                  ((parse_type_suffix fuel).1 t3 q.1 q.2 (by rw [hpt]))).trans
                  (((expectSymT_suffix hes).trans (expectIdT_suffix hei)).trans
                    (matchIdT_suffix hty))
              exact s1.sublist.subset hmem
      · split at h
        · rename_i t1 hsv
          exact absurd (matchIdT_mem hsv) hns
        · refine ih _ _ r (fun hmem => hns ?_) h
          exact (tail_suffix toks).sublist.subset hmem

unseal stripComments tokAux in
/-- C9 counterexample: on the service-less interface text `type A = nat;`
the parser succeeds, returning the alias binding and an empty method list —
it does not fail with a `ParseError`. -/
theorem c9_counterexample :
    parseTypeAliasesAndService 100 "type A = nat;".data =
      .ok ⟨[("A", .prim "nat")], []⟩ := rfl

unseal stripComments tokAux in
/-- C9 (amended): a token stream containing no `service` identifier never
produces methods: whenever parsing returns successfully the method list is
empty (rather than a `ParseError` being raised); the optional service name
before `:` is still tolerated and discarded, as on `service foo : { ... }`. -/
theorem c9_no_service_empty_methods :
    (∀ (fuel : Nat) (didText : List Char) (toks : List Tok) (r : ParseOut),
      tokenize didText = .ok toks → Tok.id "service" ∉ toks →
      parseTypeAliasesAndService fuel didText = .ok r → r.methodsRaw = []) ∧
    (∃ r, parseTypeAliasesAndService 100
        "service foo : \x7b m : () -> (); \x7d".data = .ok r ∧
      r.methodsRaw.map (fun m => m.name) = ["m"]) := by
  constructor
  · intro fuel didText toks r htok hns hp
    unfold parseTypeAliasesAndService at hp
    rw [htok] at hp
    exact mainLoopF_no_service fuel toks [] r hns hp
  · exact ⟨⟨[], [⟨"m", .update, [], [], "m : () -> ();"⟩]⟩, rfl, rfl⟩

unseal stripComments tokAux in
theorem c9_witness :
    (ParseOut.mk [("A", TNode.prim "nat")] []).methodsRaw = [] :=
  c9_no_service_empty_methods.1 100 "type A = nat;".data
    [.id "type", .id "A", .sym '=', .id "nat", .sym ';', .eof]
    ⟨[("A", .prim "nat")], []⟩ rfl (by decide) rfl

/-! ### Claim C4: canonical signature text round-trip -/

/-- A valid lexer identifier: nonempty, identifier-start head, identifier
characters throughout. -/
def validIdB : List Char → Bool
  | [] => false
  | c :: rest => isIdStart c && rest.all isIdCh

/-- The identifiers that begin a composite type in the grammar. -/
def structIds : List String := ["opt", "vec", "record", "variant"]

/-- Record/variant-free well-formed type nodes: primitives are spelled from
the parser's primitive set and references are valid identifiers distinct
from every keyword and primitive. -/
def wfT : TNode → Bool
  | .prim n => primNames.contains n
  | .ref n => validIdB n.data && !(structIds.contains n) && !(primNames.contains n)
  | .opt t => wfT t
  | .vec t => wfT t
  | .record _ _ => false
  | .variant _ => false

/-- Token rendering of a record/variant-free type's canonical text. -/
def typeToks : TNode → List Tok
  | .prim n => [.id n]
  | .ref n => [.id n]
  | .opt t => .id "opt" :: typeToks t
  | .vec t => .id "vec" :: typeToks t
  | .record _ _ => []
  | .variant _ => []

/-- Structural size of a type node, bounding the parser fuel it needs. -/
def sizeT : TNode → Nat
  | .opt t => sizeT t + 1
  | .vec t => sizeT t + 1
  | _ => 1

/-- Token rendering of a comma-joined canonical type list. -/
def argsToks : List TNode → List Tok
  | [] => []
  | [t] => typeToks t
  | t :: ts => typeToks t ++ Tok.sym ',' :: argsToks ts

/-- Fuel sufficient for `argLoopF` over a canonical type list. -/
def arglFuel : List TNode → Nat
  | [] => 1
  | t :: ts => max (sizeT t) (arglFuel ts) + 1

/-- The trailing-keyword tokens of a method of the given kind. -/
def kindToks (k : MKind) : List Tok :=
  if k = .query then [Tok.id "query"] else []

/-- Token stream of the canonical service text wrapping one method line. -/
def sigToks (mn : String) (k : MKind) (args rets : List TNode) : List Tok :=
  .id "service" :: .sym ':' :: .sym '\x7b' :: .id mn :: .sym ':' :: .sym '(' ::
  (argsToks args ++ (.sym ')' :: .sym '-' :: .sym '>' :: .sym '(' ::
    (argsToks rets ++ (.sym ')' ::
      (kindToks k ++ [.sym ';', .sym '\x7d', .eof])))))

theorem idStart_toNat_bounds {c : Char} (h : isIdStart c = true) :
    (65 ≤ c.toNat ∧ c.toNat ≤ 90) ∨ (97 ≤ c.toNat ∧ c.toNat ≤ 122) ∨
    c.toNat = 95 := by
  simp [isIdStart] at h
  omega

theorem idCh_toNat_bounds {c : Char} (h : isIdCh c = true) :
    (65 ≤ c.toNat ∧ c.toNat ≤ 90) ∨ (97 ≤ c.toNat ∧ c.toNat ≤ 122) ∨
    c.toNat = 95 ∨ (48 ≤ c.toNat ∧ c.toNat ≤ 57) := by
  simp [isIdCh, isIdStart, isDigitCh] at h
  omega

theorem not_jsWS_of_idStart {c : Char} (h : isIdStart c = true) :
    jsWS c = false := by
  have hb := idStart_toNat_bounds h
  simp only [jsWS, Bool.or_eq_false_iff, beq_eq_false_iff_ne, ne_eq,
    Bool.and_eq_false_iff, decide_eq_false_iff_not, not_le]
  omega

theorem not_quote_of_idStart {c : Char} (h : isIdStart c = true) :
    (c == '"') = false := by
  rw [beq_eq_false_iff_ne]
  intro he
  subst he
  exact absurd h (by decide)

theorem not_digit_of_idStart {c : Char} (h : isIdStart c = true) :
    isDigitCh c = false := by
  have hb := idStart_toNat_bounds h
  simp only [isDigitCh, Bool.and_eq_false_iff, decide_eq_false_iff_not, not_le]
  omega

theorem takeWhile_nil_of_head {α : Type} {p : α → Bool} {l : List α}
    (h : ∀ c ∈ l.head?, p c = false) : l.takeWhile p = [] := by
  cases l with
  | nil => rfl
  | cons a l =>
    rw [List.takeWhile_cons, if_neg]
    rw [h a (by simp)]
    simp

unseal stripComments in
theorem stripComments_no_slash : ∀ s : List Char, '/' ∉ s →
    stripComments s = s := by
  intro s
  induction s using stripComments.induct with
  | case1 => intro _; rfl
  | case2 rest =>
    intro h
    exact absurd (List.mem_cons_self _ _) h
  | case3 c rest hne ih =>
    intro h
    rw [stripComments.eq_def]
    split
    · rename_i heq
      exact absurd heq (by simp)
    · rename_i rest2 heq
      injection heq with he1 _
      subst he1
      exact absurd (List.mem_cons_self _ _) h
    · rename_i x1 c2 rest2 hx heq
      injection heq with he1 he2
      rw [← he1, ← he2, ih (fun hm => h (List.mem_cons_of_mem _ hm))]

unseal tokAux in
theorem tokAux_ws (c : Char) (cs : List Char) (h : jsWS c = true) :
    tokAux (c :: cs) = tokAux cs := by
  show (if jsWS c then tokAux cs else _) = tokAux cs
  rw [if_pos h]

unseal tokAux in
theorem tokAux_sym (c : Char) (cs : List Char) (h1 : jsWS c = false)
    (h2 : (c == '"') = false) (h3 : isDigitCh c = false)
    (h4 : isIdStart c = false) (h5 : isSymCh c = true) :
    tokAux (c :: cs) = (tokAux cs).map (Tok.sym c :: ·) := by
  show (if jsWS c then _ else if c == '"' then _ else if isDigitCh c then _
    else if isIdStart c then _ else if isSymCh c then
      (tokAux cs).map (Tok.sym c :: ·) else _) =
    (tokAux cs).map (Tok.sym c :: ·)
  rw [h1, h2, h3, h4, h5]
  simp

unseal tokAux in
theorem tokAux_idRun (w cs : List Char) (hw : validIdB w = true)
    (hcs : ∀ c ∈ cs.head?, isIdCh c = false) :
    tokAux (w ++ cs) = (tokAux cs).map (Tok.id (String.mk w) :: ·) := by
  cases w with
  | nil => cases hw
  | cons a w2 =>
    simp only [validIdB, Bool.and_eq_true, List.all_eq_true] at hw
    obtain ⟨ha, hall⟩ := hw
    show (if jsWS a then _ else if a == '"' then _
      else if isDigitCh a then _ else if isIdStart a then
        (tokAux ((w2 ++ cs).dropWhile isIdCh)).map
          (Tok.id (String.mk (a :: (w2 ++ cs).takeWhile isIdCh)) :: ·)
      else _) = _
    rw [not_jsWS_of_idStart ha, not_quote_of_idStart ha,
      not_digit_of_idStart ha, ha]
    simp only [Bool.false_eq_true, if_false, if_true]
    rw [takeWhile_append_all hall, dropWhile_append_all hall,
      takeWhile_nil_of_head hcs, dropWhile_eq_self_of_head hcs,
      List.append_nil]

theorem validIdB_chars {w : List Char} (hw : validIdB w = true) :
    ∀ c ∈ w, isIdCh c = true := by
  cases w with
  | nil => cases hw
  | cons a w2 =>
    simp only [validIdB, Bool.and_eq_true, List.all_eq_true] at hw
    intro c hc
    rcases List.mem_cons.mp hc with rfl | hc
    · simp [isIdCh, hw.1]
    · exact hw.2 c hc

theorem mem_of_containsStr {l : List String} {n : String}
    (h : l.contains n = true) : n ∈ l := by
  simpa using h

theorem primNames_valid : ∀ n ∈ primNames, validIdB n.data = true := by decide

theorem primNames_not_struct : ∀ n ∈ primNames, ¬ n ∈ structIds := by decide

theorem sizeT_pos : ∀ t, 1 ≤ sizeT t := by
  intro t
  cases t <;> simp [sizeT]

theorem typeText_chars : ∀ (k : Nat) (t : TNode), sizeT t ≤ k →
    wfT t = true → ∀ c ∈ (typeToText t).data, isIdCh c = true ∨ c = ' ' := by
  intro k
  induction k with
  | zero =>
    intro t hsz
    have := sizeT_pos t
    omega
  | succ k ih =>
    intro t hsz hwf c hc
    cases t with
    | prim n =>
      exact Or.inl (validIdB_chars
        (primNames_valid n (mem_of_containsStr hwf)) c hc)
    | ref n =>
      simp only [wfT, Bool.and_eq_true] at hwf
      exact Or.inl (validIdB_chars hwf.1.1 c hc)
    | opt t =>
      rw [show typeToText (.opt t) = "opt " ++ typeToText t from rfl,
        String.data_append] at hc
      rcases List.mem_append.mp hc with hc | hc
      · simp only [show ("opt " : String).data = ['o', 'p', 't', ' '] from rfl,
          List.mem_cons, List.mem_singleton] at hc
        rcases hc with rfl | rfl | rfl | rfl | h
        · exact Or.inl (by decide)
        · exact Or.inl (by decide)
        · exact Or.inl (by decide)
        · exact Or.inr rfl
        · cases h
      · exact ih t (by simp [sizeT] at hsz; omega) hwf c hc
    | vec t =>
      rw [show typeToText (.vec t) = "vec " ++ typeToText t from rfl,
        String.data_append] at hc
      rcases List.mem_append.mp hc with hc | hc
      · simp only [show ("vec " : String).data = ['v', 'e', 'c', ' '] from rfl,
          List.mem_cons, List.mem_singleton] at hc
        rcases hc with rfl | rfl | rfl | rfl | h
        · exact Or.inl (by decide)
        · exact Or.inl (by decide)
        · exact Or.inl (by decide)
        · exact Or.inr rfl
        · cases h
      · exact ih t (by simp [sizeT] at hsz; omega) hwf c hc
    | record fields b => cases hwf
    | variant alts => cases hwf

theorem joinText_chars : ∀ (ts : List TNode), (∀ t ∈ ts, wfT t = true) →
    ∀ c ∈ (joinComma (ts.map typeToText)).data,
      isIdCh c = true ∨ c = ' ' ∨ c = ',' := by
  intro ts
  induction ts with
  | nil =>
    intro _ c hc
    cases hc
  | cons t ts ih =>
    intro hwf c hc
    cases ts with
    | nil =>
      rcases typeText_chars (sizeT t) t le_rfl (hwf t (by simp)) c hc
        with h | h
      · exact Or.inl h
      · exact Or.inr (Or.inl h)
    | cons t2 ts2 =>
      rw [show joinComma ((t :: t2 :: ts2).map typeToText) =
          typeToText t ++ ", " ++ joinComma ((t2 :: ts2).map typeToText)
          from rfl, String.data_append, String.data_append] at hc
      rcases List.mem_append.mp hc with hc | hc
      · rcases List.mem_append.mp hc with hc | hc
        · rcases typeText_chars (sizeT t) t le_rfl (hwf t (by simp)) c hc
            with h | h
          · exact Or.inl h
          · exact Or.inr (Or.inl h)
        · simp only [show (", " : String).data = [',', ' '] from rfl,
            List.mem_cons, List.mem_singleton] at hc
          rcases hc with rfl | rfl | h
          · exact Or.inr (Or.inr rfl)
          · exact Or.inr (Or.inl rfl)
          · cases h
      · exact ih (fun x hx => hwf x (by simp [hx])) c hc

theorem head_not_id_cons {c : Char} (h : isIdCh c = false) (cs : List Char) :
    ∀ d ∈ (c :: cs).head?, isIdCh d = false := by
  intro d hd
  simp at hd
  rw [← hd]
  exact h

theorem tokAux_typeText : ∀ (k : Nat) (t : TNode), sizeT t ≤ k →
    wfT t = true → ∀ (cs : List Char) (out : List Tok),
    (∀ c ∈ cs.head?, isIdCh c = false) → tokAux cs = .ok out →
    tokAux ((typeToText t).data ++ cs) = .ok (typeToks t ++ out) := by
  intro k
  induction k with
  | zero =>
    intro t hsz
    have := sizeT_pos t
    omega
  | succ k ih =>
    intro t hsz hwf cs out hhead hok
    cases t with
    | prim n =>
      rw [show (typeToText (.prim n)).data = n.data from rfl,
        tokAux_idRun n.data cs
          (primNames_valid n (mem_of_containsStr hwf)) hhead, hok]
      rfl
    | ref n =>
      simp only [wfT, Bool.and_eq_true] at hwf
      rw [show (typeToText (.ref n)).data = n.data from rfl,
        tokAux_idRun n.data cs hwf.1.1 hhead, hok]
      rfl
    | opt t =>
      have hin : tokAux ((typeToText t).data ++ cs) = .ok (typeToks t ++ out) :=
        ih t (by simp [sizeT] at hsz; omega) hwf cs out hhead hok
      have h2 : tokAux (' ' :: ((typeToText t).data ++ cs)) =
          .ok (typeToks t ++ out) := by
        rw [tokAux_ws _ _ (by decide), hin]
      have h3 : tokAux (['o', 'p', 't'] ++
          (' ' :: ((typeToText t).data ++ cs))) =
          .ok (Tok.id "opt" :: (typeToks t ++ out)) := by
        rw [tokAux_idRun ['o', 'p', 't'] _ (by decide)
          (head_not_id_cons (by decide) _), h2]
        rfl
      exact h3
    | vec t =>
      have hin : tokAux ((typeToText t).data ++ cs) = .ok (typeToks t ++ out) :=
        ih t (by simp [sizeT] at hsz; omega) hwf cs out hhead hok
      have h2 : tokAux (' ' :: ((typeToText t).data ++ cs)) =
          .ok (typeToks t ++ out) := by
        rw [tokAux_ws _ _ (by decide), hin]
      have h3 : tokAux (['v', 'e', 'c'] ++
          (' ' :: ((typeToText t).data ++ cs))) =
          .ok (Tok.id "vec" :: (typeToks t ++ out)) := by
        rw [tokAux_idRun ['v', 'e', 'c'] _ (by decide)
          (head_not_id_cons (by decide) _), h2]
        rfl
      exact h3
    | record fields b => cases hwf
    | variant alts => cases hwf

theorem tokAux_joinList : ∀ (ts : List TNode), (∀ t ∈ ts, wfT t = true) →
    ∀ (cs : List Char) (out : List Tok),
    (∀ c ∈ cs.head?, isIdCh c = false) → tokAux cs = .ok out →
    tokAux ((joinComma (ts.map typeToText)).data ++ cs) =
      .ok (argsToks ts ++ out) := by
  intro ts
  induction ts with
  | nil =>
    intro _ cs out _ hok
    simpa using hok
  | cons t ts ih =>
    intro hwf cs out hhead hok
    cases ts with
    | nil =>
      exact tokAux_typeText (sizeT t) t le_rfl (hwf t (by simp)) cs out hhead hok
    | cons t2 ts2 =>
      have hrest : tokAux ((joinComma ((t2 :: ts2).map typeToText)).data ++ cs)
          = .ok (argsToks (t2 :: ts2) ++ out) :=
        ih (fun x hx => hwf x (by simp [hx])) cs out hhead hok
      have h2 : tokAux (' ' :: ((joinComma ((t2 :: ts2).map typeToText)).data
          ++ cs)) = .ok (argsToks (t2 :: ts2) ++ out) := by
        rw [tokAux_ws _ _ (by decide), hrest]
      have h3 : tokAux (',' :: ' ' ::
          ((joinComma ((t2 :: ts2).map typeToText)).data ++ cs)) =
          .ok (Tok.sym ',' :: (argsToks (t2 :: ts2) ++ out)) := by
        rw [tokAux_sym ',' _ (by decide) (by decide) (by decide) (by decide)
          (by decide), h2]
        rfl
      have h4 := tokAux_typeText (sizeT t) t le_rfl (hwf t (by simp)) _ _
        (head_not_id_cons (by decide) _) h3
      rw [show joinComma ((t :: t2 :: ts2).map typeToText) =
          typeToText t ++ ", " ++ joinComma ((t2 :: ts2).map typeToText)
          from rfl, String.data_append, String.data_append,
        show argsToks (t :: t2 :: ts2) =
          typeToks t ++ Tok.sym ',' :: argsToks (t2 :: ts2) from rfl]
      simp only [List.append_assoc, List.cons_append]
      exact h4

theorem tokAux_methodText (mn : String) (as rs : List TNode)
    (tail : List Char) (ktoks : List Tok)
    (hmn : validIdB mn.data = true)
    (has : ∀ t ∈ as, wfT t = true) (hrs : ∀ t ∈ rs, wfT t = true)
    (hhead : ∀ c ∈ tail.head?, isIdCh c = false)
    (htail : tokAux tail = .ok ktoks) :
    tokAux (mn.data ++ (' ' :: ':' :: ' ' :: '(' ::
        ((joinComma (as.map typeToText)).data ++ (')' :: ' ' :: '-' :: '>' ::
          ' ' :: '(' :: ((joinComma (rs.map typeToText)).data ++
            (')' :: tail)))))) =
      .ok (Tok.id mn :: .sym ':' :: .sym '(' :: (argsToks as ++
        (.sym ')' :: .sym '-' :: .sym '>' :: .sym '(' :: (argsToks rs ++
          (.sym ')' :: ktoks))))) := by
  have e1 : tokAux (')' :: tail) = .ok (Tok.sym ')' :: ktoks) := by
    rw [tokAux_sym ')' _ (by decide) (by decide) (by decide) (by decide)
      (by decide), htail]
    rfl
  have e2 := tokAux_joinList rs hrs (')' :: tail) _
    (head_not_id_cons (by decide) _) e1
  have e3 : tokAux ('(' :: ((joinComma (rs.map typeToText)).data ++
      (')' :: tail))) =
      .ok (Tok.sym '(' :: (argsToks rs ++ (.sym ')' :: ktoks))) := by
    rw [tokAux_sym '(' _ (by decide) (by decide) (by decide) (by decide)
      (by decide), e2]
    rfl
  have e4 : tokAux (' ' :: '(' :: ((joinComma (rs.map typeToText)).data ++
      (')' :: tail))) =
      .ok (Tok.sym '(' :: (argsToks rs ++ (.sym ')' :: ktoks))) := by
    rw [tokAux_ws _ _ (by decide), e3]
  have e5 : tokAux ('>' :: ' ' :: '(' ::
      ((joinComma (rs.map typeToText)).data ++ (')' :: tail))) =
      .ok (Tok.sym '>' :: .sym '(' :: (argsToks rs ++ (.sym ')' :: ktoks))) := by
    rw [tokAux_sym '>' _ (by decide) (by decide) (by decide) (by decide)
      (by decide), e4]
    rfl
  have e6 : tokAux ('-' :: '>' :: ' ' :: '(' ::
      ((joinComma (rs.map typeToText)).data ++ (')' :: tail))) =
      .ok (Tok.sym '-' :: .sym '>' :: .sym '(' ::
        (argsToks rs ++ (.sym ')' :: ktoks))) := by
    rw [tokAux_sym '-' _ (by decide) (by decide) (by decide) (by decide)
      (by decide), e5]
    rfl
  have e7 : tokAux (' ' :: '-' :: '>' :: ' ' :: '(' ::
      ((joinComma (rs.map typeToText)).data ++ (')' :: tail))) =
      .ok (Tok.sym '-' :: .sym '>' :: .sym '(' ::
        (argsToks rs ++ (.sym ')' :: ktoks))) := by
    rw [tokAux_ws _ _ (by decide), e6]
  have e8 : tokAux (')' :: ' ' :: '-' :: '>' :: ' ' :: '(' ::
      ((joinComma (rs.map typeToText)).data ++ (')' :: tail))) =
      .ok (Tok.sym ')' :: .sym '-' :: .sym '>' :: .sym '(' ::
        (argsToks rs ++ (.sym ')' :: ktoks))) := by
    rw [tokAux_sym ')' _ (by decide) (by decide) (by decide) (by decide)
      (by decide), e7]
    rfl
  have e9 := tokAux_joinList as has _ _ (head_not_id_cons (by decide) _) e8
  have e10 : tokAux ('(' :: ((joinComma (as.map typeToText)).data ++
      (')' :: ' ' :: '-' :: '>' :: ' ' :: '(' ::
        ((joinComma (rs.map typeToText)).data ++ (')' :: tail))))) =
      .ok (Tok.sym '(' :: (argsToks as ++
        (.sym ')' :: .sym '-' :: .sym '>' :: .sym '(' ::
          (argsToks rs ++ (.sym ')' :: ktoks))))) := by
    rw [tokAux_sym '(' _ (by decide) (by decide) (by decide) (by decide)
      (by decide), e9]
    rfl
  have e11 : tokAux (' ' :: '(' :: ((joinComma (as.map typeToText)).data ++
      (')' :: ' ' :: '-' :: '>' :: ' ' :: '(' ::
        ((joinComma (rs.map typeToText)).data ++ (')' :: tail))))) =
      .ok (Tok.sym '(' :: (argsToks as ++
        (.sym ')' :: .sym '-' :: .sym '>' :: .sym '(' ::
          (argsToks rs ++ (.sym ')' :: ktoks))))) := by
    rw [tokAux_ws _ _ (by decide), e10]
  have e12 : tokAux (':' :: ' ' :: '(' ::
      ((joinComma (as.map typeToText)).data ++
        (')' :: ' ' :: '-' :: '>' :: ' ' :: '(' ::
          ((joinComma (rs.map typeToText)).data ++ (')' :: tail))))) =
      .ok (Tok.sym ':' :: .sym '(' :: (argsToks as ++
        (.sym ')' :: .sym '-' :: .sym '>' :: .sym '(' ::
          (argsToks rs ++ (.sym ')' :: ktoks))))) := by
    rw [tokAux_sym ':' _ (by decide) (by decide) (by decide) (by decide)
      (by decide), e11]
    rfl
  have e13 : tokAux (' ' :: ':' :: ' ' :: '(' ::
      ((joinComma (as.map typeToText)).data ++
        (')' :: ' ' :: '-' :: '>' :: ' ' :: '(' ::
          ((joinComma (rs.map typeToText)).data ++ (')' :: tail))))) =
      .ok (Tok.sym ':' :: .sym '(' :: (argsToks as ++
        (.sym ')' :: .sym '-' :: .sym '>' :: .sym '(' ::
          (argsToks rs ++ (.sym ')' :: ktoks))))) := by
    rw [tokAux_ws _ _ (by decide), e12]
  rw [tokAux_idRun mn.data _ hmn (head_not_id_cons (by decide) _), e13]
  rfl

unseal stripComments tokAux in
theorem tokenize_sig (mn : String) (k : MKind) (as rs : List TNode)
    (hmn : validIdB mn.data = true)
    (has : ∀ t ∈ as, wfT t = true) (hrs : ∀ t ∈ rs, wfT t = true) :
    tokenize ("service : \x7b ".data ++ (mkSigLine mn k as rs).data ++
      " \x7d".data) = .ok (sigToks mn k as rs) := by
  cases k with
  | query =>
    rw [show mkSigLine mn .query as rs = mn ++ " : (" ++
      joinComma (as.map typeToText) ++ ") -> (" ++
      joinComma (rs.map typeToText) ++ ")" ++ " query;" from rfl]
    have hns : ('/' : Char) ∉ "service : \x7b ".data ++
        (mn ++ " : (" ++ joinComma (as.map typeToText) ++ ") -> (" ++
          joinComma (rs.map typeToText) ++ ")" ++ " query;").data ++
        " \x7d".data := by
      intro hm
      simp +decide only [String.data_append, List.append_assoc,
        List.mem_append, false_or, or_false] at hm
      rcases hm with hm | hm | hm
      · exact absurd (validIdB_chars hmn _ hm) (by decide)
      · rcases joinText_chars as has _ hm with h | h | h <;>
          exact absurd h (by decide)
      · rcases joinText_chars rs hrs _ hm with h | h | h <;>
          exact absurd h (by decide)
    have htext : "service : \x7b ".data ++
        (mn ++ " : (" ++ joinComma (as.map typeToText) ++ ") -> (" ++
          joinComma (rs.map typeToText) ++ ")" ++ " query;").data ++
        " \x7d".data =
        ['s', 'e', 'r', 'v', 'i', 'c', 'e'] ++
          (' ' :: ':' :: ' ' :: '\x7b' :: ' ' :: (mn.data ++
            (' ' :: ':' :: ' ' :: '(' ::
              ((joinComma (as.map typeToText)).data ++
                (')' :: ' ' :: '-' :: '>' :: ' ' :: '(' ::
                  ((joinComma (rs.map typeToText)).data ++
                    (')' :: ' ' :: 'q' :: 'u' :: 'e' :: 'r' :: 'y' :: ';' ::
                      ' ' :: '\x7d' :: []))))))) := by
      simp only [String.data_append, List.append_assoc, List.cons_append]
      rfl
    have hk : tokAux (' ' :: 'q' :: 'u' :: 'e' :: 'r' :: 'y' :: ';' ::
        ' ' :: '\x7d' :: []) = .ok [Tok.id "query", .sym ';', .sym '\x7d'] :=
      rfl
    have hmain := tokAux_methodText mn as rs
      (' ' :: 'q' :: 'u' :: 'e' :: 'r' :: 'y' :: ';' :: ' ' :: '\x7d' :: [])
      [Tok.id "query", .sym ';', .sym '\x7d'] hmn has hrs
      (head_not_id_cons (by decide) _) hk
    have p1 : tokAux (' ' :: (mn.data ++ (' ' :: ':' :: ' ' :: '(' ::
        ((joinComma (as.map typeToText)).data ++
          (')' :: ' ' :: '-' :: '>' :: ' ' :: '(' ::
            ((joinComma (rs.map typeToText)).data ++
              (')' :: ' ' :: 'q' :: 'u' :: 'e' :: 'r' :: 'y' :: ';' ::
                ' ' :: '\x7d' :: []))))))) =
        .ok (Tok.id mn :: .sym ':' :: .sym '(' :: (argsToks as ++
          (.sym ')' :: .sym '-' :: .sym '>' :: .sym '(' :: (argsToks rs ++
            (.sym ')' :: [Tok.id "query", .sym ';', .sym '\x7d']))))) := by
      rw [tokAux_ws _ _ (by decide), hmain]
    have p2 : tokAux ('\x7b' :: ' ' :: (mn.data ++ (' ' :: ':' :: ' ' :: '(' ::
        ((joinComma (as.map typeToText)).data ++
          (')' :: ' ' :: '-' :: '>' :: ' ' :: '(' ::
            ((joinComma (rs.map typeToText)).data ++
              (')' :: ' ' :: 'q' :: 'u' :: 'e' :: 'r' :: 'y' :: ';' ::
                ' ' :: '\x7d' :: []))))))) =
        .ok (Tok.sym '\x7b' :: Tok.id mn :: .sym ':' :: .sym '(' ::
          (argsToks as ++
            (.sym ')' :: .sym '-' :: .sym '>' :: .sym '(' :: (argsToks rs ++
              (.sym ')' :: [Tok.id "query", .sym ';', .sym '\x7d']))))) := by
      rw [tokAux_sym '\x7b' _ (by decide) (by decide) (by decide) (by decide)
        (by decide), p1]
      rfl
    have p3 : tokAux (' ' :: '\x7b' :: ' ' :: (mn.data ++
        (' ' :: ':' :: ' ' :: '(' ::
          ((joinComma (as.map typeToText)).data ++
            (')' :: ' ' :: '-' :: '>' :: ' ' :: '(' ::
              ((joinComma (rs.map typeToText)).data ++
                (')' :: ' ' :: 'q' :: 'u' :: 'e' :: 'r' :: 'y' :: ';' ::
                  ' ' :: '\x7d' :: []))))))) =
        .ok (Tok.sym '\x7b' :: Tok.id mn :: .sym ':' :: .sym '(' ::
          (argsToks as ++
            (.sym ')' :: .sym '-' :: .sym '>' :: .sym '(' :: (argsToks rs ++
              (.sym ')' :: [Tok.id "query", .sym ';', .sym '\x7d']))))) := by
      rw [tokAux_ws _ _ (by decide), p2]
    have p4 : tokAux (':' :: ' ' :: '\x7b' :: ' ' :: (mn.data ++
        (' ' :: ':' :: ' ' :: '(' ::
          ((joinComma (as.map typeToText)).data ++
            (')' :: ' ' :: '-' :: '>' :: ' ' :: '(' ::
              ((joinComma (rs.map typeToText)).data ++
                (')' :: ' ' :: 'q' :: 'u' :: 'e' :: 'r' :: 'y' :: ';' ::
                  ' ' :: '\x7d' :: []))))))) =
        .ok (Tok.sym ':' :: Tok.sym '\x7b' :: Tok.id mn :: .sym ':' ::
          .sym '(' :: (argsToks as ++
            (.sym ')' :: .sym '-' :: .sym '>' :: .sym '(' :: (argsToks rs ++
              (.sym ')' :: [Tok.id "query", .sym ';', .sym '\x7d']))))) := by
      rw [tokAux_sym ':' _ (by decide) (by decide) (by decide) (by decide)
        (by decide), p3]
      rfl
    have p5 : tokAux (' ' :: ':' :: ' ' :: '\x7b' :: ' ' :: (mn.data ++
        (' ' :: ':' :: ' ' :: '(' ::
          ((joinComma (as.map typeToText)).data ++
            (')' :: ' ' :: '-' :: '>' :: ' ' :: '(' ::
              ((joinComma (rs.map typeToText)).data ++
                (')' :: ' ' :: 'q' :: 'u' :: 'e' :: 'r' :: 'y' :: ';' ::
                  ' ' :: '\x7d' :: []))))))) =
        .ok (Tok.sym ':' :: Tok.sym '\x7b' :: Tok.id mn :: .sym ':' ::
          .sym '(' :: (argsToks as ++
            (.sym ')' :: .sym '-' :: .sym '>' :: .sym '(' :: (argsToks rs ++
              (.sym ')' :: [Tok.id "query", .sym ';', .sym '\x7d']))))) := by
      rw [tokAux_ws _ _ (by decide), p4]
    have p6 : tokAux (['s', 'e', 'r', 'v', 'i', 'c', 'e'] ++
        (' ' :: ':' :: ' ' :: '\x7b' :: ' ' :: (mn.data ++
          (' ' :: ':' :: ' ' :: '(' ::
            ((joinComma (as.map typeToText)).data ++
              (')' :: ' ' :: '-' :: '>' :: ' ' :: '(' ::
                ((joinComma (rs.map typeToText)).data ++
                  (')' :: ' ' :: 'q' :: 'u' :: 'e' :: 'r' :: 'y' :: ';' ::
                    ' ' :: '\x7d' :: [])))))))) =
        .ok (Tok.id "service" :: Tok.sym ':' :: Tok.sym '\x7b' :: Tok.id mn ::
          .sym ':' :: .sym '(' :: (argsToks as ++
            (.sym ')' :: .sym '-' :: .sym '>' :: .sym '(' :: (argsToks rs ++
              (.sym ')' :: [Tok.id "query", .sym ';', .sym '\x7d']))))) := by
      rw [tokAux_idRun ['s', 'e', 'r', 'v', 'i', 'c', 'e'] _ (by decide)
        (head_not_id_cons (by decide) _), p5]
      rfl
    unfold tokenize
    rw [stripComments_no_slash _ hns, htext, p6]
    simp only [sigToks, Except.map, List.cons_append, List.append_assoc]
    rw [show kindToks MKind.query = [Tok.id "query"] from rfl]
    rfl
  | update =>
    rw [show mkSigLine mn .update as rs = mn ++ " : (" ++
      joinComma (as.map typeToText) ++ ") -> (" ++
      joinComma (rs.map typeToText) ++ ")" ++ ";" from rfl]
    have hns : ('/' : Char) ∉ "service : \x7b ".data ++
        (mn ++ " : (" ++ joinComma (as.map typeToText) ++ ") -> (" ++
          joinComma (rs.map typeToText) ++ ")" ++ ";").data ++
        " \x7d".data := by
      intro hm
      simp +decide only [String.data_append, List.append_assoc,
        List.mem_append, false_or, or_false] at hm
      rcases hm with hm | hm | hm
      · exact absurd (validIdB_chars hmn _ hm) (by decide)
      · rcases joinText_chars as has _ hm with h | h | h <;>
          exact absurd h (by decide)
      · rcases joinText_chars rs hrs _ hm with h | h | h <;>
          exact absurd h (by decide)
    have htext : "service : \x7b ".data ++
        (mn ++ " : (" ++ joinComma (as.map typeToText) ++ ") -> (" ++
          joinComma (rs.map typeToText) ++ ")" ++ ";").data ++
        " \x7d".data =
        ['s', 'e', 'r', 'v', 'i', 'c', 'e'] ++
          (' ' :: ':' :: ' ' :: '\x7b' :: ' ' :: (mn.data ++
            (' ' :: ':' :: ' ' :: '(' ::
              ((joinComma (as.map typeToText)).data ++
                (')' :: ' ' :: '-' :: '>' :: ' ' :: '(' ::
                  ((joinComma (rs.map typeToText)).data ++
                    (')' :: ';' :: ' ' :: '\x7d' :: []))))))) := by
      simp only [String.data_append, List.append_assoc, List.cons_append]
      rfl
    have hk : tokAux (';' :: ' ' :: '\x7d' :: []) =
        .ok [Tok.sym ';', .sym '\x7d'] := rfl
    have hmain := tokAux_methodText mn as rs (';' :: ' ' :: '\x7d' :: [])
      [Tok.sym ';', .sym '\x7d'] hmn has hrs
      (head_not_id_cons (by decide) _) hk
    have p1 : tokAux (' ' :: (mn.data ++ (' ' :: ':' :: ' ' :: '(' ::
        ((joinComma (as.map typeToText)).data ++
          (')' :: ' ' :: '-' :: '>' :: ' ' :: '(' ::
            ((joinComma (rs.map typeToText)).data ++
              (')' :: ';' :: ' ' :: '\x7d' :: []))))))) =
        .ok (Tok.id mn :: .sym ':' :: .sym '(' :: (argsToks as ++
          (.sym ')' :: .sym '-' :: .sym '>' :: .sym '(' :: (argsToks rs ++
            (.sym ')' :: [Tok.sym ';', .sym '\x7d']))))) := by
      rw [tokAux_ws _ _ (by decide), hmain]
    have p2 : tokAux ('\x7b' :: ' ' :: (mn.data ++ (' ' :: ':' :: ' ' :: '(' ::
        ((joinComma (as.map typeToText)).data ++
          (')' :: ' ' :: '-' :: '>' :: ' ' :: '(' ::
            ((joinComma (rs.map typeToText)).data ++
              (')' :: ';' :: ' ' :: '\x7d' :: []))))))) =
        .ok (Tok.sym '\x7b' :: Tok.id mn :: .sym ':' :: .sym '(' ::
          (argsToks as ++
            (.sym ')' :: .sym '-' :: .sym '>' :: .sym '(' :: (argsToks rs ++
              (.sym ')' :: [Tok.sym ';', .sym '\x7d']))))) := by
      rw [tokAux_sym '\x7b' _ (by decide) (by decide) (by decide) (by decide)
        (by decide), p1]
      rfl
    have p3 : tokAux (' ' :: '\x7b' :: ' ' :: (mn.data ++
        (' ' :: ':' :: ' ' :: '(' ::
          ((joinComma (as.map typeToText)).data ++
            (')' :: ' ' :: '-' :: '>' :: ' ' :: '(' ::
              ((joinComma (rs.map typeToText)).data ++
                (')' :: ';' :: ' ' :: '\x7d' :: []))))))) =
        .ok (Tok.sym '\x7b' :: Tok.id mn :: .sym ':' :: .sym '(' ::
          (argsToks as ++
            (.sym ')' :: .sym '-' :: .sym '>' :: .sym '(' :: (argsToks rs ++
              (.sym ')' :: [Tok.sym ';', .sym '\x7d']))))) := by
      rw [tokAux_ws _ _ (by decide), p2]
    have p4 : tokAux (':' :: ' ' :: '\x7b' :: ' ' :: (mn.data ++
        (' ' :: ':' :: ' ' :: '(' ::
          ((joinComma (as.map typeToText)).data ++
            (')' :: ' ' :: '-' :: '>' :: ' ' :: '(' ::
              ((joinComma (rs.map typeToText)).data ++
                (')' :: ';' :: ' ' :: '\x7d' :: []))))))) =
        .ok (Tok.sym ':' :: Tok.sym '\x7b' :: Tok.id mn :: .sym ':' ::
          .sym '(' :: (argsToks as ++
            (.sym ')' :: .sym '-' :: .sym '>' :: .sym '(' :: (argsToks rs ++
              (.sym ')' :: [Tok.sym ';', .sym '\x7d']))))) := by
      rw [tokAux_sym ':' _ (by decide) (by decide) (by decide) (by decide)
        (by decide), p3]
      rfl
    have p5 : tokAux (' ' :: ':' :: ' ' :: '\x7b' :: ' ' :: (mn.data ++
        (' ' :: ':' :: ' ' :: '(' ::
          ((joinComma (as.map typeToText)).data ++
            (')' :: ' ' :: '-' :: '>' :: ' ' :: '(' ::
              ((joinComma (rs.map typeToText)).data ++
                (')' :: ';' :: ' ' :: '\x7d' :: []))))))) =
        .ok (Tok.sym ':' :: Tok.sym '\x7b' :: Tok.id mn :: .sym ':' ::
          .sym '(' :: (argsToks as ++
            (.sym ')' :: .sym '-' :: .sym '>' :: .sym '(' :: (argsToks rs ++
              (.sym ')' :: [Tok.sym ';', .sym '\x7d']))))) := by
      rw [tokAux_ws _ _ (by decide), p4]
    have p6 : tokAux (['s', 'e', 'r', 'v', 'i', 'c', 'e'] ++
        (' ' :: ':' :: ' ' :: '\x7b' :: ' ' :: (mn.data ++
          (' ' :: ':' :: ' ' :: '(' ::
            ((joinComma (as.map typeToText)).data ++
              (')' :: ' ' :: '-' :: '>' :: ' ' :: '(' ::
                ((joinComma (rs.map typeToText)).data ++
                  (')' :: ';' :: ' ' :: '\x7d' :: [])))))))) =
        .ok (Tok.id "service" :: Tok.sym ':' :: Tok.sym '\x7b' :: Tok.id mn ::
          .sym ':' :: .sym '(' :: (argsToks as ++
            (.sym ')' :: .sym '-' :: .sym '>' :: .sym '(' :: (argsToks rs ++
              (.sym ')' :: [Tok.sym ';', .sym '\x7d']))))) := by
      rw [tokAux_idRun ['s', 'e', 'r', 'v', 'i', 'c', 'e'] _ (by decide)
        (head_not_id_cons (by decide) _), p5]
      rfl
    unfold tokenize
    rw [stripComments_no_slash _ hns, htext, p6]
    simp only [sigToks, Except.map, List.cons_append, List.append_assoc]
    rw [show kindToks MKind.update = [] from rfl]
    rfl

theorem typeToks_head {t : TNode} (h : wfT t = true) :
    ∃ w tl, typeToks t = Tok.id w :: tl := by
  cases t with
  | prim n => exact ⟨n, [], rfl⟩
  | ref n => exact ⟨n, [], rfl⟩
  | opt t => exact ⟨"opt", typeToks t, rfl⟩
  | vec t => exact ⟨"vec", typeToks t, rfl⟩
  | record fields b => cases h
  | variant alts => cases h

theorem not_mem_of_not_containsStr {l : List String} {n : String}
    (h : l.contains n = false) : ¬ n ∈ l := by
  intro hm
  rw [(by simpa using hm : l.contains n = true)] at h
  cases h

theorem structIds_matchIdT {n : String} (h : ¬ n ∈ structIds)
    (v : String) (hv : v ∈ structIds) (rest : List Tok) :
    matchIdT v (Tok.id n :: rest) = none := by
  simp only [matchIdT]
  rw [if_neg]
  intro he
  exact h (he ▸ hv)

theorem parseTypeF_round : ∀ (fuel : Nat) (t : TNode) (rest : List Tok),
    wfT t = true → sizeT t ≤ fuel →
    parseTypeF fuel (typeToks t ++ rest) = .ok (t, rest) := by
  intro fuel
  induction fuel with
  | zero =>
    intro t rest _ hsz
    have := sizeT_pos t
    omega
  | succ fuel ih =>
    intro t rest hwf hsz
    cases t with
    | prim n =>
      have hns : ¬ n ∈ structIds :=
        primNames_not_struct n (mem_of_containsStr hwf)
      show parseTypeF (fuel+1) (Tok.id n :: rest) = .ok (.prim n, rest)
      unfold parseTypeF
      split
      · rename_i t1 heq
        rw [structIds_matchIdT hns "opt" (by decide) rest] at heq
        cases heq
      · split
        · rename_i t1 heq
          rw [structIds_matchIdT hns "vec" (by decide) rest] at heq
          cases heq
        · split
          · rename_i t1 heq
            rw [structIds_matchIdT hns "record" (by decide) rest] at heq
            cases heq
          · split
            · rename_i t1 heq
              rw [structIds_matchIdT hns "variant" (by decide) rest] at heq
              cases heq
            · show (if n ∈ primNames then Except.ok (TNode.prim n, rest)
                else Except.ok (TNode.ref n, rest)) = .ok (.prim n, rest)
              rw [if_pos (mem_of_containsStr hwf)]
    | ref n =>
      simp only [wfT, Bool.and_eq_true, Bool.not_eq_true'] at hwf
      have hns : ¬ n ∈ structIds := not_mem_of_not_containsStr hwf.1.2
      have hnp : ¬ n ∈ primNames := not_mem_of_not_containsStr hwf.2
      show parseTypeF (fuel+1) (Tok.id n :: rest) = .ok (.ref n, rest)
      unfold parseTypeF
      split
      · rename_i t1 heq
        rw [structIds_matchIdT hns "opt" (by decide) rest] at heq
        cases heq
      · split
        · rename_i t1 heq
          rw [structIds_matchIdT hns "vec" (by decide) rest] at heq
          cases heq
        · split
          · rename_i t1 heq
            rw [structIds_matchIdT hns "record" (by decide) rest] at heq
            cases heq
          · split
            · rename_i t1 heq
              rw [structIds_matchIdT hns "variant" (by decide) rest] at heq
              cases heq
            · show (if n ∈ primNames then Except.ok (TNode.prim n, rest)
                else Except.ok (TNode.ref n, rest)) = .ok (.ref n, rest)
              rw [if_neg hnp]
    | opt inner =>
      have hsz2 : sizeT inner ≤ fuel := by
        simp only [sizeT] at hsz
        omega
      show parseTypeF (fuel+1) (Tok.id "opt" :: (typeToks inner ++ rest)) =
        .ok (.opt inner, rest)
      unfold parseTypeF
      split
      · rename_i t1 heq
        simp only [matchIdT, if_pos] at heq
        injection heq with heq
        rw [← heq, ih inner rest hwf hsz2]
        rfl
      · rename_i heq
        simp [matchIdT] at heq
    | vec inner =>
      have hsz2 : sizeT inner ≤ fuel := by
        simp only [sizeT] at hsz
        omega
      show parseTypeF (fuel+1) (Tok.id "vec" :: (typeToks inner ++ rest)) =
        .ok (.vec inner, rest)
      unfold parseTypeF
      split
      · rename_i t1 heq
        simp +decide [matchIdT] at heq
      · split
        · rename_i t1 heq
          simp only [matchIdT, if_pos] at heq
          injection heq with heq
          rw [← heq, ih inner rest hwf hsz2]
          rfl
        · rename_i heq
          simp [matchIdT] at heq
    | record fields b => cases hwf
    | variant alts => cases hwf

theorem argLoopF_round : ∀ (ts : List TNode) (acc : List TNode)
    (rest : List Tok) (fuel : Nat), ts ≠ [] → (∀ t ∈ ts, wfT t = true) →
    arglFuel ts ≤ fuel →
    argLoopF fuel (argsToks ts ++ Tok.sym ')' :: rest) acc =
      .ok (acc ++ ts, rest) := by
  intro ts
  induction ts with
  | nil =>
    intro acc rest fuel hne _ _
    exact absurd rfl hne
  | cons t ts ih =>
    intro acc rest fuel _ hwf hfuel
    obtain ⟨f, rfl⟩ : ∃ f, fuel = f + 1 :=
      ⟨fuel - 1, by simp [arglFuel] at hfuel; omega⟩
    have hszt : sizeT t ≤ f := by simp [arglFuel] at hfuel; omega
    cases ts with
    | nil =>
      show argLoopF (f+1) (typeToks t ++ (Tok.sym ')' :: rest)) acc =
        .ok (acc ++ [t], rest)
      unfold argLoopF
      rw [parseTypeF_round f t (Tok.sym ')' :: rest) (hwf t (by simp)) hszt]
      rfl
    | cons t2 ts2 =>
      show argLoopF (f+1) ((typeToks t ++ Tok.sym ',' :: argsToks (t2 :: ts2))
        ++ Tok.sym ')' :: rest) acc = .ok (acc ++ t :: t2 :: ts2, rest)
      rw [List.append_assoc]
      unfold argLoopF
      rw [parseTypeF_round f t ((Tok.sym ',' :: argsToks (t2 :: ts2)) ++
        Tok.sym ')' :: rest) (hwf t (by simp)) hszt]
      have hrec := ih (acc ++ [t]) rest f (by simp)
        (fun x hx => hwf x (by simp [hx]))
        (by simp [arglFuel] at hfuel ⊢; omega)
      rw [List.append_assoc] at hrec
      exact hrec

theorem parseArgListF_round : ∀ (ts : List TNode) (rest : List Tok)
    (fuel : Nat), (∀ t ∈ ts, wfT t = true) → arglFuel ts ≤ fuel →
    parseArgListF fuel (argsToks ts ++ Tok.sym ')' :: rest) = .ok (ts, rest) := by
  intro ts rest fuel hwf hfuel
  cases ts with
  | nil => rfl
  | cons t ts2 =>
    obtain ⟨w, tl, hw⟩ := typeToks_head (hwf t (by simp))
    unfold parseArgListF
    split
    · rename_i r heq
      exfalso
      cases ts2 with
      | nil =>
        rw [show argsToks [t] = typeToks t from rfl, hw] at heq
        simp [matchSymT, List.cons_append] at heq
      | cons t3 ts3 =>
        rw [show argsToks (t :: t3 :: ts3) =
          typeToks t ++ Tok.sym ',' :: argsToks (t3 :: ts3) from rfl, hw] at heq
        simp [matchSymT, List.cons_append] at heq
    · exact argLoopF_round (t :: ts2) [] rest fuel (by simp) hwf hfuel

theorem exceptBind_ok {α β ε : Type} (a : α) (f : α → Except ε β) :
    (Except.ok a >>= f) = f a := rfl

theorem serviceLoopF_one (f : Nat) (mn : String) (k : MKind)
    (as rs : List TNode)
    (has : ∀ t ∈ as, wfT t = true) (hrs : ∀ t ∈ rs, wfT t = true)
    (hfa : arglFuel as ≤ f) (hfr : arglFuel rs ≤ f) (hf1 : 1 ≤ f) :
    serviceLoopF (f+1) (Tok.id mn :: .sym ':' :: .sym '(' ::
      (argsToks as ++ (.sym ')' :: .sym '-' :: .sym '>' :: .sym '(' ::
        (argsToks rs ++ (.sym ')' ::
          (kindToks k ++ [.sym ';', .sym '\x7d', .eof])))))) [] =
      .ok ([⟨mn, k, as, rs, mkSigLine mn k as rs⟩], [Tok.eof]) := by
  obtain ⟨f1, rfl⟩ : ∃ f1, f = f1 + 1 := ⟨f - 1, by omega⟩
  cases k with
  | query =>
    unfold serviceLoopF
    simp +decide only [matchSymT, peekT, expectSymT, List.tail_cons,
      exceptBind_ok, kindToks, List.cons_append, List.nil_append, if_true,
      if_false]
    rw [parseArgListF_round as _ (f1+1) has hfa]
    simp +decide only [exceptBind_ok, expectSymT, if_true, if_false]
    rw [parseArgListF_round rs _ (f1+1) hrs hfr]
    rfl
  | update =>
    unfold serviceLoopF
    simp +decide only [matchSymT, peekT, expectSymT, List.tail_cons,
      exceptBind_ok, kindToks, List.cons_append, List.nil_append, if_true,
      if_false]
    rw [parseArgListF_round as _ (f1+1) has hfa]
    simp +decide only [exceptBind_ok, expectSymT, if_true, if_false]
    rw [parseArgListF_round rs _ (f1+1) hrs hfr]
    rfl

theorem exceptPure_eq {ε α : Type} (a : α) :
    (pure a : Except ε α) = Except.ok a := rfl

theorem mainLoop_sig (fuel : Nat) (mn : String) (k : MKind)
    (as rs : List TNode)
    (has : ∀ t ∈ as, wfT t = true) (hrs : ∀ t ∈ rs, wfT t = true)
    (hfuel : arglFuel as + arglFuel rs + 3 ≤ fuel) :
    mainLoopF fuel (sigToks mn k as rs) [] =
      .ok ⟨[], [⟨mn, k, as, rs, mkSigLine mn k as rs⟩]⟩ := by
  have ha1 : 1 ≤ arglFuel as := by cases as <;> simp [arglFuel]
  have hr1 : 1 ≤ arglFuel rs := by cases rs <;> simp [arglFuel]
  obtain ⟨f, rfl⟩ : ∃ f, fuel = f + 1 := ⟨fuel - 1, by omega⟩
  obtain ⟨f2, rfl⟩ : ∃ f2, f = f2 + 1 := ⟨f - 1, by omega⟩
  unfold mainLoopF
  rw [if_neg (by simp [sigToks, peekT])]
  simp +decide only [sigToks, matchIdT, matchSymT, peekT, List.tail_cons,
    exceptBind_ok, exceptPure_eq, expectSymT, if_true, if_false,
    List.cons_append]
  rw [serviceLoopF_one f2 mn k as rs has hrs (by omega) (by omega) (by omega)]
  rfl

unseal stripComments tokAux in
/-- C4 counterexample: the interface
`service : { m : (record { a : nat }) -> (); }` parses to a method whose
argument node is the record `{a : nat}`, and its canonical signature text
elides the record body to `record { … }`; re-parsing that canonical text in
a service block yields a method whose argument is the empty record — not a
structure identical to the original, refuting the round-trip as stated. -/
theorem c4_counterexample :
    parseTypeAliasesAndService 100
        "service : \x7b m : (record \x7b a : nat \x7d) -> (); \x7d".data =
      .ok ⟨[], [⟨"m", .update, [.record [("a", .prim "nat")] false], [],
        "m : (record \x7b … \x7d) -> ();"⟩]⟩ ∧
    parseTypeAliasesAndService 100
        ("service : \x7b ".data ++
          "m : (record \x7b … \x7d) -> ();".data ++ " \x7d".data) =
      .ok ⟨[], [⟨"m", .update, [.record [] false], [],
        "m : (record \x7b … \x7d) -> ();"⟩]⟩ ∧
    ([("a", TNode.prim "nat")] : List (String × TNode)) ≠ [] :=
  ⟨rfl, rfl, fun h => List.noConfusion h⟩

/-- C4 (amended): for every method whose name is a valid identifier and
whose argument and return type nodes are record/variant-free and
well-formed (primitives from the parser's primitive set, references that
are valid identifiers distinct from keywords and primitives), the canonical
signature line rebuilt by the parser re-parses, inside a canonical service
block, to exactly the same name, kind, argument nodes, return nodes and
signature line. -/
theorem c4_canonical_roundtrip :
    ∀ (mn : String) (k : MKind) (as rs : List TNode) (fuel : Nat),
      validIdB mn.data = true →
      (∀ t ∈ as, wfT t = true) → (∀ t ∈ rs, wfT t = true) →
      arglFuel as + arglFuel rs + 3 ≤ fuel →
      parseTypeAliasesAndService fuel
        ("service : \x7b ".data ++ (mkSigLine mn k as rs).data ++
          " \x7d".data) =
        .ok ⟨[], [⟨mn, k, as, rs, mkSigLine mn k as rs⟩]⟩ := by
  intro mn k as rs fuel hmn has hrs hfuel
  unfold parseTypeAliasesAndService
  rw [tokenize_sig mn k as rs hmn has hrs, exceptBind_ok]
  exact mainLoop_sig fuel mn k as rs has hrs hfuel

theorem c4_witness :
    parseTypeAliasesAndService 20
      ("service : \x7b ".data ++
        (mkSigLine "m" .update [.opt (.prim "nat"), .ref "foo"]
          [.prim "bool"]).data ++ " \x7d".data) =
      .ok ⟨[], [⟨"m", .update, [.opt (.prim "nat"), .ref "foo"],
        [.prim "bool"],
        mkSigLine "m" .update [.opt (.prim "nat"), .ref "foo"]
          [.prim "bool"]⟩]⟩ :=
  c4_canonical_roundtrip "m" .update [.opt (.prim "nat"), .ref "foo"]
    [.prim "bool"] 20 (by decide) (by decide) (by decide) (by decide)

end DCC
